import Mathlib

/-!
Verification of the natural-language specification of `anacore/sequenceIO.py`
against a shallow embedding of its code.

Files are modelled as lists of characters (`List Char`); a reader's position
in the stream is modelled by the remaining suffix of the file, so Python's
`tell()`-comparison "position unchanged after a `readline()`" is equivalent to
"`readline()` returned the empty string", which in turn is equivalent to the
remaining suffix being empty.  Python `str` values are `List Char`; `None` is
`Option.none`; exceptions are `Except` errors.
-/

set_option maxHeartbeats 1000000
set_option maxRecDepth 8000
set_option exponentiation.threshold 1100

/-- The characters Python's `str.strip()` and `str.split(None)` treat as
whitespace: `str.isspace()` holds of the ASCII whitespace and separator
controls and of the Unicode space characters. -/
def pyWs (c : Char) : Bool :=
  c = ' ' || c = '\t' || c = '\n' || c = '\x0d' || c = '\x0b' || c = '\x0c' ||
  c = '\x1c' || c = '\x1d' || c = '\x1e' || c = '\x1f' || c = '\x85' || c = '\xa0' ||
  c = '\u1680' || ('\u2000' ≤ c && c ≤ '\u200a') || c = '\u2028' || c = '\u2029' ||
  c = '\u202f' || c = '\u205f' || c = '\u3000'

/-- Python `file.readline()` in text mode with universal newlines
(`newline=None`, the default of both `open` and `gzip.open(..., mode + "t")`):
a line ends at `'\n'`, at `'\r\n'` or at a lone `'\r'`, and the line ending is
translated to `'\n'` in the returned string; the empty string is returned
exactly at end of stream.  (On the write side `newline=None` translates `'\n'`
to `os.linesep`, which is `'\n'` itself on the POSIX systems this library
targets, so written text is unchanged.) -/
def pyReadline : List Char → List Char × List Char
  | [] => ([], [])
  | c :: rest =>
    if c = '\n' then (['\n'], rest)
    else if c = '\r' then
      match rest with
      | [] => (['\n'], [])
      | d :: rest2 => if d = '\n' then (['\n'], rest2) else (['\n'], d :: rest2)
    else
      let p := pyReadline rest
      (c :: p.1, p.2)

/-- Python `str.strip()`: remove leading and trailing whitespace. -/
def pyStrip (l : List Char) : List Char :=
  ((l.reverse.dropWhile pyWs).reverse).dropWhile pyWs

/-- Python `str.split(None, 1)`: split on runs of whitespace, at most once;
leading whitespace is discarded, and the remainder keeps its trailing spaces. -/
def pySplitWs1 (l : List Char) : List (List Char) :=
  let l1 := l.dropWhile pyWs
  if l1 = [] then []
  else
    let tok := l1.takeWhile (fun c => !pyWs c)
    let rest := (l1.dropWhile (fun c => !pyWs c)).dropWhile pyWs
    if rest = [] then [tok] else [tok, rest]

/-- Exceptions that can escape the translated functions: `IOError` raised by the
codecs (carrying the current line number and the file path), Python's `KeyError`
(raised by `count_by_qual[num_ascii]` for a key outside `-5..126`), and
`OverflowError` (raised when `nb_qual / 100` or `int(...)` of its infinite
product exceeds the binary64 range). -/
inductive PyErr where
  | ioError (line : Nat) (path : String)
  | keyError (key : Int)
  | overflowError
deriving DecidableEq, Repr

/-- Model of `Sequence` (sequenceIO.py, class Sequence): id, optional description,
residue string, optional quality string. -/
structure Sequence where
  id : List Char
  description : Option (List Char)
  string : List Char
  quality : Option (List Char)
deriving DecidableEq, Repr

/-- Model of `FastqIO.nextSeq` (sequenceIO.py lines 172-209).  Reads a header line; if the
stream position is unchanged (nothing read) returns the `none` sentinel.
Otherwise splits `header[1:]` on the first whitespace run into id and optional
description (`fields[0]` raises `IndexError`, reported as `IOError`, when there
is no id token), then reads the sequence line, the separator line and the
quality line, each stripped, `readline` never failing at end of stream.
Returns the record, the remaining stream and the updated line number. -/
def fastqNextSeq (content : List Char) (lineNb : Nat) (path : String) :
    Except PyErr (Option (Sequence × List Char × Nat)) :=
  match pyReadline content with
  | ([], _) => .ok none
  | (hline, rest) =>
    match pySplitWs1 ((pyStrip hline).drop 1) with
    | [] => .error (.ioError lineNb path)
    | f0 :: frest =>
      let sl := pyReadline rest
      let sep := pyReadline sl.2
      let ql := pyReadline sep.2
      .ok (some (⟨f0, frest.head?, pyStrip sl.1, some (pyStrip ql.1)⟩, ql.2, lineNb + 4))

/-- One record's four FASTQ lines as written by `FastqIO.seqToFastqLine`
(sequenceIO.py lines 326-339); `none` when the record has no quality
(Python would raise a `TypeError` concatenating `None`). -/
def descPart : Option (List Char) → List Char
  | none => []
  | some d => ' ' :: d

/-- Model of `FastqIO.seqToFastqLine` (sequenceIO.py lines 326-339). -/
def seqToFastqLine (s : Sequence) : Option (List Char) :=
  s.quality.map (fun q =>
    '@' :: (s.id ++ descPart s.description)
      ++ '\n' :: (s.string ++ '\n' :: '+' :: '\n' :: q))

/-- Model of `FastqIO.write` (sequenceIO.py lines 316-324): the fastq lines plus a
trailing newline, appended to the stream. -/
def fastqWriteStr (s : Sequence) : Option (List Char) :=
  (seqToFastqLine s).map (fun l => l ++ ['\n'])

section BasicLemmas

theorem pyReadline_fst_nil_iff (l : List Char) :
    (pyReadline l).1 = [] ↔ l = [] := by
  cases l with
  | nil => simp [pyReadline]
  | cons c rest =>
    by_cases h : c = '\n'
    · simp [pyReadline, h]
    · by_cases h2 : c = '\r'
      · cases rest with
        | nil => simp [pyReadline, h, h2]
        | cons d t => by_cases h3 : d = '\n' <;> simp [pyReadline, h, h2, h3]
      · simp [pyReadline, h, h2]

theorem pyReadline_snd_le (l : List Char) : (pyReadline l).2.length ≤ l.length := by
  induction l with
  | nil => simp [pyReadline]
  | cons c rest ih =>
    by_cases h : c = '\n'
    · simp [pyReadline, h]
    · by_cases h2 : c = '\r'
      · cases rest with
        | nil => simp [pyReadline, h, h2]
        | cons d t =>
          by_cases h3 : d = '\n' <;> simp [pyReadline, h, h2, h3] <;> omega
      · simp only [pyReadline, h, h2, if_neg, if_false, List.length_cons]
        omega

theorem pyReadline_snd_lt (l : List Char) (h : l ≠ []) :
    (pyReadline l).2.length < l.length := by
  cases l with
  | nil => exact absurd rfl h
  | cons c rest =>
    by_cases hc : c = '\n'
    · simp [pyReadline, hc]
    · by_cases h2 : c = '\r'
      · cases rest with
        | nil => simp [pyReadline, hc, h2]
        | cons d t =>
          by_cases h3 : d = '\n' <;> simp [pyReadline, hc, h2, h3] <;> omega
      · have := pyReadline_snd_le rest
        simp only [pyReadline, hc, h2, if_neg, if_false, List.length_cons]
        omega

theorem pyReadline_append (pre rest : List Char) (h : '\n' ∉ pre) (h2 : '\r' ∉ pre) :
    pyReadline (pre ++ '\n' :: rest) = (pre ++ ['\n'], rest) := by
  induction pre with
  | nil => simp [pyReadline]
  | cons c t ih =>
    have hc : c ≠ '\n' := by
      intro hc; exact h (by simp [hc])
    have hc2 : c ≠ '\r' := by
      intro hc2; exact h2 (by simp [hc2])
    have ht : '\n' ∉ t := fun hm => h (by simp [hm])
    have ht2 : '\r' ∉ t := fun hm => h2 (by simp [hm])
    simp [pyReadline, hc, hc2, ih ht ht2]

theorem dropWhile_all_false {p : Char → Bool} (l : List Char)
    (h : ∀ c ∈ l, p c = false) : l.dropWhile p = l := by
  cases l with
  | nil => rfl
  | cons c t =>
    have : p c = false := h c (by simp)
    simp [List.dropWhile_cons, this]

theorem dropWhile_append_left {p : Char → Bool} (xs ys : List Char)
    (hne : xs ≠ []) (hx : xs.dropWhile p = xs) :
    (xs ++ ys).dropWhile p = xs ++ ys := by
  cases xs with
  | nil => exact absurd rfl hne
  | cons c t =>
    have hc : p c = false := by
      by_contra hb
      have hb' : p c = true := by
        revert hb; cases p c <;> simp
      rw [List.dropWhile_cons, if_pos hb'] at hx
      have hle : (t.dropWhile p).length ≤ t.length :=
        (List.dropWhile_suffix p).length_le
      have h2 := congrArg List.length hx
      simp at h2
      omega
    simp [List.dropWhile_cons, hc, hx]

theorem takeWhile_all_true {p : Char → Bool} (l : List Char)
    (h : ∀ c ∈ l, p c = true) : l.takeWhile p = l := by
  induction l with
  | nil => rfl
  | cons c t ih =>
    have hc : p c = true := h c (by simp)
    have ht : ∀ c ∈ t, p c = true := fun c hm => h c (by simp [hm])
    simp [List.takeWhile_cons, hc, ih ht]

theorem takeWhile_append_stop {p : Char → Bool} (xs : List Char) (c : Char)
    (ys : List Char) (hall : ∀ a ∈ xs, p a = true) (hc : p c = false) :
    (xs ++ c :: ys).takeWhile p = xs := by
  induction xs with
  | nil => simp [List.takeWhile_cons, hc]
  | cons a t ih =>
    have ha : p a = true := hall a (by simp)
    have ht : ∀ b ∈ t, p b = true := fun b hm => hall b (by simp [hm])
    simp [List.takeWhile_cons, ha, ih ht]

theorem dropWhile_append_stop {p : Char → Bool} (xs : List Char) (c : Char)
    (ys : List Char) (hall : ∀ a ∈ xs, p a = true) (hc : p c = false) :
    (xs ++ c :: ys).dropWhile p = c :: ys := by
  induction xs with
  | nil => simp [List.dropWhile_cons, hc]
  | cons a t ih =>
    have ha : p a = true := hall a (by simp)
    have ht : ∀ b ∈ t, p b = true := fun b hm => hall b (by simp [hm])
    simp [List.dropWhile_cons, ha, ih ht]

theorem pyStrip_nl (l : List Char) (h1 : l.dropWhile pyWs = l)
    (h2 : l.reverse.dropWhile pyWs = l.reverse) :
    pyStrip (l ++ ['\n']) = l := by
  unfold pyStrip
  rw [List.reverse_append]
  have hnl : pyWs '\n' = true := by decide
  simp only [List.reverse_cons, List.reverse_nil, List.nil_append, List.singleton_append,
    List.dropWhile_cons, hnl, if_pos]
  rw [h2, List.reverse_reverse, h1]

theorem pyStrip_eq_self (l : List Char) (h1 : l.dropWhile pyWs = l)
    (h2 : l.reverse.dropWhile pyWs = l.reverse) : pyStrip l = l := by
  unfold pyStrip
  rw [h2, List.reverse_reverse, h1]

theorem dropWhile_eqs_of_all_nonws (l : List Char)
    (h : ∀ c ∈ l, pyWs c = false) :
    l.dropWhile pyWs = l ∧ l.reverse.dropWhile pyWs = l.reverse := by
  constructor
  · exact dropWhile_all_false l h
  · exact dropWhile_all_false l.reverse (fun c hm => h c (List.mem_reverse.mp hm))

theorem split_single (id : List Char) (hne : id ≠ [])
    (hid : ∀ c ∈ id, pyWs c = false) : pySplitWs1 id = [id] := by
  unfold pySplitWs1
  have h1 : id.dropWhile pyWs = id := dropWhile_all_false id hid
  have h2 : id.takeWhile (fun c => !pyWs c) = id :=
    takeWhile_all_true id (fun c hm => by simp [hid c hm])
  have h3 : id.dropWhile (fun c => !pyWs c) = [] :=
    List.dropWhile_eq_nil_iff.mpr (fun c hm => by simp [hid c hm])
  simp only [h1, if_neg hne, h2, h3, List.dropWhile_nil]
  simp

theorem split_pair (id d : List Char) (hne : id ≠ [])
    (hid : ∀ c ∈ id, pyWs c = false) (hd1 : d.dropWhile pyWs = d) (hdne : d ≠ []) :
    pySplitWs1 (id ++ ' ' :: d) = [id, d] := by
  unfold pySplitWs1
  have hsp : pyWs ' ' = true := by decide
  have hall : ∀ c ∈ id, (fun c => !pyWs c) c = true := fun c hm => by simp [hid c hm]
  have h1 : (id ++ ' ' :: d).dropWhile pyWs = id ++ ' ' :: d := by
    apply dropWhile_append_left _ _ hne (dropWhile_all_false id hid)
  have h2 : (id ++ ' ' :: d).takeWhile (fun c => !pyWs c) = id :=
    takeWhile_append_stop id ' ' d hall (by simp [hsp])
  have h3 : (id ++ ' ' :: d).dropWhile (fun c => !pyWs c) = ' ' :: d :=
    dropWhile_append_stop id ' ' d hall (by simp [hsp])
  have h4 : (' ' :: d).dropWhile pyWs = d := by
    simp [List.dropWhile_cons, hsp, hd1]
  have hne2 : id ++ ' ' :: d ≠ [] := by simp
  simp only [h1, if_neg hne2, h2, h3, h4, if_neg hdne]

end BasicLemmas

section FastqNextSeqLemmas

theorem fastqNextSeq_cons (content : List Char) (a : Char) (t r : List Char)
    (lineNb : Nat) (path : String) (hrl : pyReadline content = (a :: t, r)) :
    fastqNextSeq content lineNb path =
      match pySplitWs1 ((pyStrip (a :: t)).drop 1) with
      | [] => .error (.ioError lineNb path)
      | f0 :: frest =>
        .ok (some (⟨f0, frest.head?, pyStrip (pyReadline r).1,
          some (pyStrip (pyReadline (pyReadline (pyReadline r).2).2).1)⟩,
          (pyReadline (pyReadline (pyReadline r).2).2).2, lineNb + 4)) := by
  unfold fastqNextSeq
  rw [hrl]

theorem fastqNextSeq_none_iff (content : List Char) (lineNb : Nat) (path : String) :
    fastqNextSeq content lineNb path = .ok none ↔ content = [] := by
  cases hc : content with
  | nil => simp [fastqNextSeq, pyReadline]
  | cons c rest =>
    simp only [reduceCtorEq, iff_false]
    intro h
    rcases hrl : pyReadline (c :: rest) with ⟨f, r⟩
    cases f with
    | nil =>
      have := (pyReadline_fst_nil_iff (c :: rest)).mp (by rw [hrl])
      simp at this
    | cons a t =>
      rw [fastqNextSeq_cons (c :: rest) a t r lineNb path hrl] at h
      cases hsp : pySplitWs1 ((pyStrip (a :: t)).drop 1) with
      | nil => rw [hsp] at h; simp at h
      | cons f0 frest => rw [hsp] at h; simp at h

theorem fastqNextSeq_error_eq (content : List Char) (lineNb : Nat) (path : String)
    (e : PyErr) (h : fastqNextSeq content lineNb path = .error e) :
    e = .ioError lineNb path := by
  cases hc : content with
  | nil =>
    rw [hc] at h
    simp [fastqNextSeq, pyReadline] at h
  | cons c rest =>
    rw [hc] at h
    rcases hrl : pyReadline (c :: rest) with ⟨f, r⟩
    cases f with
    | nil =>
      exfalso
      have := (pyReadline_fst_nil_iff (c :: rest)).mp (by rw [hrl])
      simp at this
    | cons a t =>
      rw [fastqNextSeq_cons (c :: rest) a t r lineNb path hrl] at h
      cases hsp : pySplitWs1 ((pyStrip (a :: t)).drop 1) with
      | nil =>
        rw [hsp] at h
        simp at h
        exact h.symm
      | cons f0 frest =>
        rw [hsp] at h
        simp at h

theorem fastqNextSeq_some_len (content : List Char) (lineNb : Nat) (path : String)
    (r : Sequence) (c' : List Char) (l' : Nat)
    (h : fastqNextSeq content lineNb path = .ok (some (r, c', l'))) :
    c'.length < content.length := by
  cases hc : content with
  | nil =>
    rw [hc] at h
    simp [fastqNextSeq, pyReadline] at h
  | cons c rest =>
    rw [hc] at h
    rcases hrl : pyReadline (c :: rest) with ⟨f, rst⟩
    cases f with
    | nil =>
      exfalso
      have := (pyReadline_fst_nil_iff (c :: rest)).mp (by rw [hrl])
      simp at this
    | cons a t =>
      rw [fastqNextSeq_cons (c :: rest) a t rst lineNb path hrl] at h
      cases hsp : pySplitWs1 ((pyStrip (a :: t)).drop 1) with
      | nil => rw [hsp] at h; simp at h
      | cons f0 frest =>
        rw [hsp] at h
        simp only [Except.ok.injEq, Option.some.injEq, Prod.mk.injEq] at h
        have hc' : c' = (pyReadline (pyReadline (pyReadline rst).2).2).2 :=
          (h.2.1).symm
        have h1 : rst.length < (c :: rest).length := by
          have h0 : rst = (pyReadline (c :: rest)).2 := by rw [hrl]
          rw [h0]
          exact pyReadline_snd_lt _ (by simp)
        have h2 := pyReadline_snd_le rst
        have h3 := pyReadline_snd_le (pyReadline rst).2
        have h4 := pyReadline_snd_le (pyReadline (pyReadline rst).2).2
        rw [hc']
        have h5 : (c :: rest).length = rest.length + 1 := by simp
        simp only [List.length_cons]
        omega

end FastqNextSeqLemmas

section WellFormedParse

theorem fastqNextSeq_wf (id : List Char) (desc : Option (List Char))
    (str q tail : List Char) (lineNb : Nat) (path : String)
    (hidne : id ≠ []) (hidw : ∀ c ∈ id, pyWs c = false)
    (hdesc : ∀ d, desc = some d → d ≠ [] ∧ '\n' ∉ d ∧ '\x0d' ∉ d ∧
      d.dropWhile pyWs = d ∧ d.reverse.dropWhile pyWs = d.reverse)
    (hstr1 : '\n' ∉ str) (hstr0 : '\x0d' ∉ str) (hstr2 : str.dropWhile pyWs = str)
    (hstr3 : str.reverse.dropWhile pyWs = str.reverse)
    (hq1 : '\n' ∉ q) (hq0 : '\x0d' ∉ q) (hq2 : q.dropWhile pyWs = q)
    (hq3 : q.reverse.dropWhile pyWs = q.reverse) :
    fastqNextSeq (('@' :: (id ++ descPart desc)) ++
        '\n' :: (str ++ '\n' :: '+' :: '\n' :: (q ++ '\n' :: tail))) lineNb path =
      .ok (some (⟨id, desc, str, some q⟩, tail, lineNb + 4)) := by
  have hws_at : pyWs '@' = false := by decide
  have hws_nl : pyWs '\n' = true := by decide
  have hws_cr : pyWs '\x0d' = true := by decide
  have hid_nl : '\n' ∉ id := by
    intro hm
    have := hidw '\n' hm
    rw [hws_nl] at this
    exact absurd this (by simp)
  have hid_cr : '\x0d' ∉ id := by
    intro hm
    have := hidw '\x0d' hm
    rw [hws_cr] at this
    exact absurd this (by simp)
  have hpre_nl : '\n' ∉ '@' :: (id ++ descPart desc) := by
    intro hm
    rcases hm with _ | hm
    rcases List.mem_append.mp (by assumption) with hm1 | hm2
    · exact hid_nl hm1
    · cases hdp : desc with
      | none => rw [hdp] at hm2; simp [descPart] at hm2
      | some d =>
        rw [hdp] at hm2
        simp only [descPart] at hm2
        rcases hm2 with _ | hm3
        exact (hdesc d hdp).2.1 (by assumption)
  have hpre_cr : '\x0d' ∉ '@' :: (id ++ descPart desc) := by
    intro hm
    rcases hm with _ | hm
    rcases List.mem_append.mp (by assumption) with hm1 | hm2
    · exact hid_cr hm1
    · cases hdp : desc with
      | none => rw [hdp] at hm2; simp [descPart] at hm2
      | some d =>
        rw [hdp] at hm2
        simp only [descPart] at hm2
        rcases hm2 with _ | hm3
        exact (hdesc d hdp).2.2.1 (by assumption)
  have h1 : ('@' :: (id ++ descPart desc)).dropWhile pyWs = '@' :: (id ++ descPart desc) := by
    simp [List.dropWhile_cons, hws_at]
  have h2 : ('@' :: (id ++ descPart desc)).reverse.dropWhile pyWs =
      ('@' :: (id ++ descPart desc)).reverse := by
    cases hdp : desc with
    | none =>
      apply dropWhile_all_false
      intro c hm
      rw [List.mem_reverse] at hm
      rcases hm with _ | hm
      · exact hws_at
      rcases List.mem_append.mp (by assumption) with hm1 | hm2
      · exact hidw c hm1
      · simp [descPart] at hm2
    | some d =>
      obtain ⟨hdne, hdnl, hdcr, hdd, hdr⟩ := hdesc d hdp
      have hrw : ('@' :: (id ++ descPart (some d))).reverse =
          d.reverse ++ (' ' :: (id.reverse ++ ['@'])) := by
        simp [descPart, List.reverse_cons, List.reverse_append, List.append_assoc]
      rw [hrw]
      exact dropWhile_append_left _ _ (by simp [hdne]) hdr
  have hrl : pyReadline (('@' :: (id ++ descPart desc)) ++
      '\n' :: (str ++ '\n' :: '+' :: '\n' :: (q ++ '\n' :: tail))) =
      ('@' :: ((id ++ descPart desc) ++ ['\n']),
        str ++ '\n' :: '+' :: '\n' :: (q ++ '\n' :: tail)) := by
    rw [pyReadline_append _ _ hpre_nl hpre_cr]
    simp
  rw [fastqNextSeq_cons _ '@' ((id ++ descPart desc) ++ ['\n'])
    (str ++ '\n' :: '+' :: '\n' :: (q ++ '\n' :: tail)) lineNb path hrl]
  have hstrip : pyStrip ('@' :: ((id ++ descPart desc) ++ ['\n'])) =
      '@' :: (id ++ descPart desc) := by
    have := pyStrip_nl ('@' :: (id ++ descPart desc)) h1 h2
    simpa using this
  rw [hstrip]
  have hdrop : ('@' :: (id ++ descPart desc)).drop 1 = id ++ descPart desc := by simp
  rw [hdrop]
  have hsl : pyReadline (str ++ '\n' :: '+' :: '\n' :: (q ++ '\n' :: tail)) =
      (str ++ ['\n'], '+' :: '\n' :: (q ++ '\n' :: tail)) :=
    pyReadline_append _ _ hstr1 hstr0
  have hsep : pyReadline ('+' :: '\n' :: (q ++ '\n' :: tail)) =
      (['+', '\n'], q ++ '\n' :: tail) := by
    have ha : ('\n' : Char) ∉ ['+'] := by decide
    have hb : ('\x0d' : Char) ∉ ['+'] := by decide
    have h := pyReadline_append ['+'] (q ++ '\n' :: tail) ha hb
    simpa using h
  have hql : pyReadline (q ++ '\n' :: tail) = (q ++ ['\n'], tail) :=
    pyReadline_append _ _ hq1 hq0
  have hstripstr : pyStrip (str ++ ['\n']) = str := pyStrip_nl _ hstr2 hstr3
  have hstripq : pyStrip (q ++ ['\n']) = q := pyStrip_nl _ hq2 hq3
  cases hdp : desc with
  | none =>
    have hsplit : pySplitWs1 (id ++ descPart none) = [id] := by
      simp only [descPart, List.append_nil]
      exact split_single id hidne hidw
    rw [hsplit]
    simp only [hsl, hsep, hql, hstripstr, hstripq, List.head?]
  | some d =>
    obtain ⟨hdne, hdnl, hdcr, hdd, hdr⟩ := hdesc d hdp
    have hsplit : pySplitWs1 (id ++ descPart (some d)) = [id, d] := by
      simp only [descPart]
      exact split_pair id d hidne hidw hdd hdne
    rw [hsplit]
    simp only [hsl, hsep, hql, hstripstr, hstripq, List.head?]

end WellFormedParse

/-- A fixed file path used for concrete instances (the path only appears inside
error values). -/
def somePath : String := "reads.fastq"

/-- One character of the regex class `[A-Za-z]` used by `FastqIO.isValid`
(`re.search("^[A-Za-z]*$", ...)` succeeds iff every character is ASCII
alphabetic; the stripped line contains no newline, so `$` is the end anchor). -/
def isAsciiAlpha (c : Char) : Bool :=
  ('A' ≤ c && c ≤ 'Z') || ('a' ≤ c && c ≤ 'z')

/-- Model of `FastqIO.isValid` (sequenceIO.py lines 248-293): scan up to 10 records; for
each, the header must start with `@`, the sequence line must exist and match
`^[A-Za-z]*$` after stripping, the separator line must exist, and the stripped
quality line must have the same length as the stripped sequence line.  Any
violation (an exception in the source) yields `false`; a clean end of stream
yields `true`. -/
def fastqIsValid (content : List Char) (seqIdx : Nat) : Bool :=
  if 10 ≤ seqIdx then true
  else
    let hl := pyReadline content
    if hcl : hl.1 = [] then true
    else if hl.1.head? ≠ some '@' then false
    else
      let sl := pyReadline hl.2
      if sl.1 = [] then false
      else if ¬ (pyStrip sl.1).all isAsciiAlpha then false
      else
        let sep := pyReadline sl.2
        if sep.1 = [] then false
        else
          let ql := pyReadline sep.2
          if (pyStrip sl.1).length ≠ (pyStrip ql.1).length then false
          else fastqIsValid ql.2 (seqIdx + 1)
termination_by content.length
decreasing_by
  have hne : content ≠ [] := by
    intro h
    exact hcl ((pyReadline_fst_nil_iff content).mpr h)
  have h1 : (pyReadline content).2.length < content.length := pyReadline_snd_lt content hne
  have h2 := pyReadline_snd_le (pyReadline content).2
  have h3 := pyReadline_snd_le (pyReadline (pyReadline content).2).2
  have h4 := pyReadline_snd_le (pyReadline (pyReadline (pyReadline content).2).2).2
  omega

/-- Claim C1 (amended).  Writing a record with the FASTQ codec and reading it
back yields an equal record, for records whose quality is present with the
residue length, whose id is nonempty and contains no whitespace at all, whose
description (when present) is nonempty, contains no newline and no carriage
return and has no leading or trailing whitespace, and whose residues and
quality contain no newline and no carriage return (either would be converted
to a line ending by the text layer's universal-newline translation on reading)
and no leading or trailing whitespace. -/
theorem C1_roundtrip_amended (s : Sequence) (q : List Char) (path : String)
    (hq : s.quality = some q) (hlen : q.length = s.string.length)
    (hidne : s.id ≠ []) (hidw : ∀ c ∈ s.id, pyWs c = false)
    (hdesc : ∀ d, s.description = some d → d ≠ [] ∧ '\n' ∉ d ∧ '\x0d' ∉ d ∧
      d.dropWhile pyWs = d ∧ d.reverse.dropWhile pyWs = d.reverse)
    (hstr1 : '\n' ∉ s.string) (hstr0 : '\x0d' ∉ s.string)
    (hstr2 : s.string.dropWhile pyWs = s.string)
    (hstr3 : s.string.reverse.dropWhile pyWs = s.string.reverse)
    (hq1 : '\n' ∉ q) (hq0 : '\x0d' ∉ q) (hq2 : q.dropWhile pyWs = q)
    (hq3 : q.reverse.dropWhile pyWs = q.reverse) :
    ∀ out, fastqWriteStr s = some out →
      fastqNextSeq out 1 path = .ok (some (s, [], 5)) := by
  intro out hout
  obtain ⟨i, dsc, st, qual⟩ := s
  simp only at hq hlen hidne hidw hdesc hstr1 hstr0 hstr2 hstr3
  subst hq
  simp only [fastqWriteStr, seqToFastqLine, Option.map_some', Option.some.injEq] at hout
  subst hout
  have hsh : ('@' :: (i ++ descPart dsc) ++ '\n' :: (st ++ '\n' :: '+' :: '\n' :: q)) ++ ['\n'] =
      ('@' :: (i ++ descPart dsc)) ++ '\n' :: (st ++ '\n' :: '+' :: '\n' :: (q ++ '\n' :: [])) := by
    simp [List.append_assoc]
  rw [hsh]
  exact fastqNextSeq_wf i dsc st q [] 1 path hidne hidw hdesc hstr1 hstr0 hstr2 hstr3
    hq1 hq0 hq2 hq3

/-- Claim C1, counterexample.  The record with id `"a b"` (an embedded space,
but no newline and no strippable leading or trailing whitespace), no
description, residues `"A"` and quality `"I"` satisfies the claim's hypotheses,
yet writing and re-reading it yields id `"a"` and description `"b"`: the
round trip is not the identity. -/
theorem C1_counterexample :
    fastqWriteStr ⟨['a', ' ', 'b'], none, ['A'], some ['I']⟩ =
      some ('@' :: 'a' :: ' ' :: 'b' :: '\n' :: 'A' :: '\n' :: '+' :: '\n' :: 'I' :: '\n' :: []) ∧
    fastqNextSeq ('@' :: 'a' :: ' ' :: 'b' :: '\n' :: 'A' :: '\n' :: '+' :: '\n' :: 'I' :: '\n' :: [])
        1 somePath =
      .ok (some (⟨['a'], some ['b'], ['A'], some ['I']⟩, [], 5)) ∧
    (⟨['a'], some ['b'], ['A'], some ['I']⟩ : Sequence) ≠
      ⟨['a', ' ', 'b'], none, ['A'], some ['I']⟩ := by
  refine ⟨rfl, ?_, by decide⟩
  rfl

/-- Claim C1, witness: a concrete record satisfying the amended hypotheses
round-trips exactly. -/
theorem C1_roundtrip_witness :
    fastqNextSeq ('@' :: 'r' :: '1' :: '\n' :: 'A' :: 'C' :: '\n' :: '+' :: '\n' :: 'I' :: 'I' :: '\n' :: [])
        1 somePath =
      .ok (some (⟨['r', '1'], none, ['A', 'C'], some ['I', 'I']⟩, [], 5)) := by
  have h := C1_roundtrip_amended ⟨['r', '1'], none, ['A', 'C'], some ['I', 'I']⟩
    ['I', 'I'] somePath rfl rfl (by decide) (by decide)
    (by intro d hd; simp at hd) (by decide) (by decide) rfl rfl
    (by decide) (by decide) rfl rfl
  exact h _ rfl

/-- Claim C5.  For every 4-line FASTQ record whose quality line is shorter than
its sequence line (header with a whitespace-free nonempty id, alphabetic
sequence line), the detector `FastqIO.isValid` rejects the file, while
`FastqIO.nextSeq` on the same input succeeds and returns a record: no
sequence/quality length check exists on the read path. -/
theorem C5_detector_asymmetry (id seq qual : List Char) (path : String)
    (hidne : id ≠ []) (hidw : ∀ c ∈ id, pyWs c = false)
    (_hseq : ∀ c ∈ seq, isAsciiAlpha c = true)
    (hseqw : ∀ c ∈ seq, pyWs c = false)
    (hqualw : ∀ c ∈ qual, pyWs c = false)
    (hlen : qual.length < seq.length) :
    fastqIsValid (('@' :: id) ++ '\n' :: (seq ++ '\n' :: '+' :: '\n' :: (qual ++ '\n' :: []))) 0
        = false ∧
    fastqNextSeq (('@' :: id) ++ '\n' :: (seq ++ '\n' :: '+' :: '\n' :: (qual ++ '\n' :: []))) 1 path
        = .ok (some (⟨id, none, seq, some qual⟩, [], 5)) := by
  have hid_nl : '\n' ∉ '@' :: id := by
    intro hm
    rcases hm with _ | hm
    have := hidw '\n' (by assumption)
    simp [pyWs] at this
  have hid_cr : '\x0d' ∉ '@' :: id := by
    intro hm
    rcases hm with _ | hm
    have := hidw '\x0d' (by assumption)
    simp [pyWs] at this
  have hseq_nl : '\n' ∉ seq := by
    intro hm
    have := hseqw '\n' hm
    simp [pyWs] at this
  have hseq_cr : '\x0d' ∉ seq := by
    intro hm
    have := hseqw '\x0d' hm
    simp [pyWs] at this
  have hqual_nl : '\n' ∉ qual := by
    intro hm
    have := hqualw '\n' hm
    simp [pyWs] at this
  have hqual_cr : '\x0d' ∉ qual := by
    intro hm
    have := hqualw '\x0d' hm
    simp [pyWs] at this
  have hrl : pyReadline (('@' :: id) ++ '\n' :: (seq ++ '\n' :: '+' :: '\n' :: (qual ++ '\n' :: []))) =
      ('@' :: (id ++ ['\n']), seq ++ '\n' :: '+' :: '\n' :: (qual ++ '\n' :: [])) := by
    rw [pyReadline_append _ _ hid_nl hid_cr]
    simp
  have hsl : pyReadline (seq ++ '\n' :: '+' :: '\n' :: (qual ++ '\n' :: [])) =
      (seq ++ ['\n'], '+' :: '\n' :: (qual ++ '\n' :: [])) := by
    have h := pyReadline_append seq ('+' :: '\n' :: (qual ++ '\n' :: [])) hseq_nl hseq_cr
    simpa using h
  have hsep : pyReadline ('+' :: '\n' :: (qual ++ '\n' :: [])) =
      (['+', '\n'], qual ++ '\n' :: []) := by
    have ha : ('\n' : Char) ∉ ['+'] := by decide
    have hb : ('\x0d' : Char) ∉ ['+'] := by decide
    have h := pyReadline_append ['+'] (qual ++ '\n' :: []) ha hb
    simpa using h
  have hql : pyReadline (qual ++ '\n' :: []) = (qual ++ ['\n'], []) := by
    have h := pyReadline_append qual [] hqual_nl hqual_cr
    simpa using h
  have hseq_dw := dropWhile_eqs_of_all_nonws seq hseqw
  have hqual_dw := dropWhile_eqs_of_all_nonws qual hqualw
  have hstrip_seq : pyStrip (seq ++ ['\n']) = seq := pyStrip_nl _ hseq_dw.1 hseq_dw.2
  have hstrip_qual : pyStrip (qual ++ ['\n']) = qual := pyStrip_nl _ hqual_dw.1 hqual_dw.2
  constructor
  · unfold fastqIsValid
    rw [hrl]
    have h10 : ¬ (10 ≤ 0) := by decide
    rw [if_neg h10]
    have hcl : ¬ (('@' :: (id ++ ['\n']), seq ++ '\n' :: '+' :: '\n' :: (qual ++ '\n' :: [])).1 = []) := by
      simp
    rw [dif_neg hcl]
    simp only [hsl, hsep, hql, hstrip_seq, hstrip_qual]
    have hlen_ne : seq.length ≠ qual.length := by omega
    simp [hlen_ne]
  · have hsh : ('@' :: id) ++ '\n' :: (seq ++ '\n' :: '+' :: '\n' :: (qual ++ '\n' :: [])) =
        ('@' :: (id ++ descPart none)) ++ '\n' :: (seq ++ '\n' :: '+' :: '\n' :: (qual ++ '\n' :: [])) := by
      simp [descPart]
    rw [hsh]
    exact fastqNextSeq_wf id none seq qual [] 1 path hidne hidw
      (by intro d hd; simp at hd) hseq_nl hseq_cr hseq_dw.1 hseq_dw.2
      hqual_nl hqual_cr hqual_dw.1 hqual_dw.2

/-- Claim C5, witness: the concrete record `@r1 / ACGT / + / II` (quality
shorter than sequence) is rejected by the detector but read back as a record
by `nextSeq`. -/
theorem C5_detector_asymmetry_witness :
    fastqIsValid ('@' :: 'r' :: '1' :: '\n' :: 'A' :: 'C' :: 'G' :: 'T' :: '\n' :: '+' :: '\n' :: 'I' :: 'I' :: '\n' :: []) 0
        = false ∧
    fastqNextSeq ('@' :: 'r' :: '1' :: '\n' :: 'A' :: 'C' :: 'G' :: 'T' :: '\n' :: '+' :: '\n' :: 'I' :: 'I' :: '\n' :: []) 1 somePath
        = .ok (some (⟨['r', '1'], none, ['A', 'C', 'G', 'T'], some ['I', 'I']⟩, [], 5)) := by
  have h := C5_detector_asymmetry ['r', '1'] ['A', 'C', 'G', 'T'] ['I', 'I'] somePath
    (by decide) (by decide) (by decide) (by decide) (by decide) (by decide)
  simpa using h

/-- Claim C6 (amended).  `FastqIO.nextSeq` returns the `none` sentinel exactly
when the attempted header read leaves the stream position unchanged (the stream
was already exhausted); when any exception occurs during the record read it is
reported as an `IOError` carrying the current line number and the file path.
(The only such exception is a header with no id token; end-of-stream mid-record
does *not* raise: the missing lines are read as empty strings, see the
counterexample.) -/
theorem C6_sentinel_amended :
    (∀ content lineNb path, fastqNextSeq content lineNb path = .ok none ↔ content = []) ∧
    (∀ content lineNb path e, fastqNextSeq content lineNb path = .error e →
      e = .ioError lineNb path) :=
  ⟨fastqNextSeq_none_iff, fastqNextSeq_error_eq⟩

/-- Claim C6, counterexample.  On the truncated input `"@r1\n"` (end of stream
in the middle of the 4-line record) `nextSeq` does not raise: it returns a
record with empty residues and empty quality. -/
theorem C6_counterexample :
    fastqNextSeq ['@', 'r', '1', '\n'] 1 somePath =
      .ok (some (⟨['r', '1'], none, [], some []⟩, [], 5)) := rfl

/-- Claim C6, witness: the sentinel equivalence applied to the empty stream,
and the error characterization applied to the input `"@\n"` whose header has no
id token. -/
theorem C6_sentinel_witness :
    fastqNextSeq [] 3 somePath = .ok none ∧
    PyErr.ioError 1 somePath = .ioError 1 somePath :=
  ⟨(C6_sentinel_amended.1 [] 3 somePath).mpr rfl,
    C6_sentinel_amended.2 ['@', '\n'] 1 somePath (.ioError 1 somePath) rfl⟩

/-- The file-handle state of a `FastqIO` object as far as `close` is concerned
(sequenceIO.py lines 139-155): the handle (the remaining stream, or `none` once
closed) and the current line number (or `none` once closed). -/
structure FastqHandle where
  file_handle : Option (List Char)
  current_line_nb : Option Nat
deriving DecidableEq, Repr

/-- Model of `FastqIO.close` (sequenceIO.py lines 150-155): if the handle is present,
close it and clear the handle and line-number fields; otherwise do nothing. -/
def fastqClose (st : FastqHandle) : FastqHandle :=
  match st.file_handle with
  | some _ => ⟨none, none⟩
  | none => st

/-- The file-handle state of a `FastaIO` object (sequenceIO.py lines 356-374):
handle, line number, pending header and end-of-file flag. -/
structure FastaHandle where
  file_handle : Option (List Char)
  current_line_nb : Option Nat
  next_id : Option (List Char)
  end_of_file : Bool
deriving DecidableEq, Repr

/-- Model of `FastaIO.close` (sequenceIO.py lines 369-374). -/
def fastaClose (st : FastaHandle) : FastaHandle :=
  match st.file_handle with
  | some _ => ⟨none, none, st.next_id, st.end_of_file⟩
  | none => st

/-- Claim C10.  For both codecs, `close` is idempotent: closing an open handle
leaves the handle field `none` and the line counter cleared, and every further
close (including the one run by `__del__`) is a no-op changing no state. -/
theorem C10_close_idempotent :
    (∀ st : FastqHandle, st.file_handle.isSome = true →
      (fastqClose st).file_handle = none ∧ (fastqClose st).current_line_nb = none) ∧
    (∀ st : FastqHandle, fastqClose (fastqClose st) = fastqClose st) ∧
    (∀ st : FastaHandle, st.file_handle.isSome = true →
      (fastaClose st).file_handle = none ∧ (fastaClose st).current_line_nb = none) ∧
    (∀ st : FastaHandle, fastaClose (fastaClose st) = fastaClose st) := by
  refine ⟨?_, ?_, ?_, ?_⟩
  · intro st h
    rcases st with ⟨fh, ln⟩
    cases fh with
    | none => simp at h
    | some v => simp [fastqClose]
  · intro st
    rcases st with ⟨fh, ln⟩
    cases fh <;> simp [fastqClose]
  · intro st h
    rcases st with ⟨fh, ln, ni, eof⟩
    cases fh with
    | none => simp at h
    | some v => simp [fastaClose]
  · intro st
    rcases st with ⟨fh, ln, ni, eof⟩
    cases fh <;> simp [fastaClose]

/-- Claim C10, witness: concrete open handles closed twice. -/
theorem C10_close_idempotent_witness :
    ((fastqClose ⟨some [], some 1⟩).file_handle = none ∧
      (fastqClose ⟨some [], some 1⟩).current_line_nb = none) ∧
    ((fastaClose ⟨some [], some 1, none, false⟩).file_handle = none ∧
      (fastaClose ⟨some [], some 1, none, false⟩).current_line_nb = none) :=
  ⟨C10_close_idempotent.1 ⟨some [], some 1⟩ rfl,
    C10_close_idempotent.2.2.1 ⟨some [], some 1, none, false⟩ rfl⟩

/-- The mutable state of a `FastaIO` reader (sequenceIO.py lines 345-364):
remaining stream, current line number, pending header (`_next_id`) and
end-of-file flag. -/
structure FastaState where
  content : List Char
  lineNb : Nat
  next_id : Option (List Char)
  end_of_file : Bool
deriving DecidableEq, Repr

/-- A freshly opened `FastaIO` reader on the given stream. -/
def fastaInit (content : List Char) : FastaState := ⟨content, 1, none, false⟩

/-- The body loop of `FastaIO.nextSeq` (sequenceIO.py lines 407-415): starting
from the current `line`, accumulate stripped line contents until a line
starting with `>` is read (it becomes the new pending header) or end of stream
is hit (pending header becomes `None`, end-of-file flag set).  Returns
`(seq_str, pending, remaining stream, line number, end_of_file)`. -/
def fastaLoop (line seqStr content : List Char) (lineNb : Nat) :
    List Char × Option (List Char) × List Char × Nat × Bool :=
  if line.head? = some '>' then (seqStr, some line, content, lineNb, false)
  else
    let seqStr2 := seqStr ++ pyStrip line
    let rl := pyReadline content
    if rl.1 = [] then (seqStr2, none, rl.2, lineNb, true)
    else fastaLoop rl.1 seqStr2 rl.2 (lineNb + 1)
termination_by content.length
decreasing_by
  rename_i hne
  refine pyReadline_snd_lt content ?_
  intro h
  refine hne ?_
  show (pyReadline content).1 = []
  rw [h]
  rfl

/-- Model of `FastaIO.nextSeq` (sequenceIO.py lines 391-430).  If the end-of-file flag is
set, return the `none` sentinel.  Otherwise, on the very first call read one
line as the pending header; run the accumulation loop; split the pending header
(`_next_id[1:]`, a `TypeError` on `None` or an `IndexError` on a missing id
token is reported as `IOError` with the current line number); return the record
(quality absent) and the updated state. -/
def fastaNextSeq (st : FastaState) (path : String) :
    Except PyErr (Option Sequence × FastaState) :=
  if st.end_of_file then .ok (none, st)
  else
    let st1 : FastaState :=
      if st.lineNb = 1 then
        ⟨(pyReadline st.content).2, 2, some (pyStrip (pyReadline st.content).1), st.end_of_file⟩
      else st
    let lp := fastaLoop [] [] st1.content st1.lineNb
    match st1.next_id with
    | none => .error (.ioError lp.2.2.2.1 path)
    | some pid =>
      match pySplitWs1 (pid.drop 1) with
      | [] => .error (.ioError lp.2.2.2.1 path)
      | f0 :: frest =>
        .ok (some ⟨f0, (frest.head?).map pyStrip, lp.1, none⟩,
          ⟨lp.2.2.1, lp.2.2.2.1, lp.2.1, lp.2.2.2.2⟩)

/-- Claim C9.  On a completely empty FASTA input the very first `nextSeq` call
raises an `IOError` (the empty pending header has no id token) rather than
returning the sentinel; and for any reader state, `nextSeq` returns the `none`
sentinel exactly when the end-of-file flag is already set. -/
theorem C9_fasta_empty :
    (∀ path, fastaNextSeq (fastaInit []) path = .error (.ioError 2 path)) ∧
    (∀ (st : FastaState) (path : String),
      (∃ st2, fastaNextSeq st path = .ok (none, st2)) ↔ st.end_of_file = true) := by
  constructor
  · intro path
    have hloop : fastaLoop [] [] [] 2 = ([], none, [], 2, true) := by
      unfold fastaLoop
      simp [pyReadline, pyStrip]
    simp [fastaNextSeq, fastaInit, hloop, pyReadline, pyStrip, pySplitWs1]
  · intro st path
    constructor
    · rintro ⟨st2, h⟩
      by_contra hne
      have heof : st.end_of_file = false := by
        revert hne; cases st.end_of_file <;> simp
      rw [fastaNextSeq, if_neg (by simp [heof])] at h
      by_cases h1 : st.lineNb = 1
      · simp only [h1, if_pos] at h
        cases hsp : pySplitWs1 ((pyStrip (pyReadline st.content).1).drop 1) with
        | nil => rw [hsp] at h; simp at h
        | cons f0 frest => rw [hsp] at h; simp at h
      · simp only [h1, if_neg, if_false] at h
        cases hni : st.next_id with
        | none => simp [hni] at h
        | some pid =>
          cases hsp : pySplitWs1 pid.tail with
          | nil => simp [hni, hsp] at h
          | cons f0 frest => simp [hni, hsp] at h
    · intro heof
      exact ⟨st, by simp [fastaNextSeq, heof]⟩

/-- Helper for `pyLines`: prepend a character to the first line of a line list. -/
def consLine (c : Char) : List (List Char) → List (List Char)
  | [] => [[c]]
  | l :: ls => (c :: l) :: ls

/-- The list of lines returned by successive `readline()` calls on the stream,
each line ending in the translated `'\n'` (the last line always does too, the
universal-newline layer supplying it for a final lone `'\r'`, while a final
line with no line ending at all keeps none); the lines are never empty (see
`pyLines_eq_readline` for the correspondence with `pyReadline`). -/
def pyLines : List Char → List (List Char)
  | [] => []
  | c :: rest =>
    if c = '\n' then ['\n'] :: pyLines rest
    else if c = '\r' then
      match rest with
      | [] => [['\n']]
      | d :: rest2 =>
        if d = '\n' then ['\n'] :: pyLines rest2 else ['\n'] :: pyLines (d :: rest2)
    else consLine c (pyLines rest)

theorem pyLines_nil : pyLines [] = [] := rfl

theorem pyLines_cons_nl (rest : List Char) :
    pyLines ('\n' :: rest) = ['\n'] :: pyLines rest := by
  rw [pyLines.eq_def]
  simp

theorem pyLines_cons (c : Char) (rest : List Char) (hc : c ≠ '\n') (hc2 : c ≠ '\x0d') :
    pyLines (c :: rest) = consLine c (pyLines rest) := by
  rw [pyLines.eq_def]
  simp [hc, hc2]

theorem pyLines_cons_cr_nil : pyLines ['\x0d'] = [['\n']] := by
  rw [pyLines.eq_def]
  simp

theorem pyLines_cons_cr_nl (rest : List Char) :
    pyLines ('\x0d' :: '\n' :: rest) = ['\n'] :: pyLines rest := by
  rw [pyLines.eq_def]
  simp

theorem pyLines_cons_cr (d : Char) (rest : List Char) (hd : d ≠ '\n') :
    pyLines ('\x0d' :: d :: rest) = ['\n'] :: pyLines (d :: rest) := by
  rw [pyLines.eq_def]
  simp [hd]

theorem pyReadline_cons (c : Char) (rest : List Char) (hc : c ≠ '\n') (hc2 : c ≠ '\x0d') :
    pyReadline (c :: rest) = (c :: (pyReadline rest).1, (pyReadline rest).2) := by
  simp [pyReadline, hc, hc2]

theorem pyLines_eq_readline (content : List Char) (h : content ≠ []) :
    pyLines content = (pyReadline content).1 :: pyLines (pyReadline content).2 := by
  induction content with
  | nil => exact absurd rfl h
  | cons c rest ih =>
    by_cases hc : c = '\n'
    · subst hc
      rw [pyLines_cons_nl]
      simp [pyReadline]
    · by_cases hc2 : c = '\x0d'
      · subst hc2
        cases rest with
        | nil => rw [pyLines_cons_cr_nil]; simp [pyReadline, pyLines_nil]
        | cons d t =>
          by_cases h3 : d = '\n'
          · subst h3
            rw [pyLines_cons_cr_nl]
            simp [pyReadline]
          · rw [pyLines_cons_cr d t h3]
            simp [pyReadline, h3]
      · rw [pyLines_cons c rest hc hc2, pyReadline_cons c rest hc hc2]
        cases hr : rest with
        | nil => simp [pyLines_nil, pyReadline, consLine]
        | cons d t =>
          rw [← hr, ih (by simp [hr]), consLine]

/-- Model of `FastaIO.isValid` (sequenceIO.py lines 432-467), expressed over the line
list of the stream (the source loop interacts with the stream only through
`readline()`): scan lines while fewer than 10 headers have been seen; a header
line (starting with `>`) immediately after another header line, or a
non-header line while no header has been seen yet, invalidates the file; a
clean end of stream validates it.  The second component is the number of lines
the scan consumed. -/
def fastaValidLoop : List (List Char) → Nat → Option Bool → Bool × Nat
  | lines, seqIdx, prev =>
    if 10 ≤ seqIdx then (true, 0)
    else
      match lines with
      | [] => (true, 0)
      | line :: rest =>
        if line.head? = some '>' then
          if prev = some true then (false, 1)
          else
            let r := fastaValidLoop rest (seqIdx + 1) (some true)
            (r.1, r.2 + 1)
        else
          if seqIdx = 0 then (false, 1)
          else
            let r := fastaValidLoop rest seqIdx (some false)
            (r.1, r.2 + 1)

/-- Model of `FastaIO.isValid` on a whole stream. -/
def fastaIsValid (content : List Char) : Bool :=
  (fastaValidLoop (pyLines content) 0 none).1

theorem fastaValidLoop_nil_consumed (seqIdx : Nat) (prev : Option Bool) :
    (fastaValidLoop [] seqIdx prev).2 = 0 := by
  unfold fastaValidLoop
  by_cases h : 10 ≤ seqIdx <;> simp [h]

theorem fastaValidLoop_after_header (rest : List (List Char)) (seqIdx : Nat)
    (hv : (fastaValidLoop rest seqIdx (some true)).1 = true)
    (hc : 1 ≤ (fastaValidLoop rest seqIdx (some true)).2) :
    (rest.getD 0 []).head? ≠ some '>' := by
  cases rest with
  | nil => rw [fastaValidLoop_nil_consumed] at hc; omega
  | cons l2 r2 =>
    by_cases h10 : 10 ≤ seqIdx
    · unfold fastaValidLoop at hc
      simp [h10] at hc
    · intro hh
      unfold fastaValidLoop at hv
      simp only [List.getD_cons_zero] at hh
      simp [h10, hh] at hv

theorem fastaValidLoop_adjacent (lines : List (List Char)) :
    ∀ seqIdx prev, (fastaValidLoop lines seqIdx prev).1 = true →
    ∀ i, i + 1 < (fastaValidLoop lines seqIdx prev).2 →
      ((lines.getD i []).head? = some '>') →
      ((lines.getD (i + 1) []).head? ≠ some '>') := by
  induction lines with
  | nil =>
    intro seqIdx prev hv i hi
    rw [fastaValidLoop_nil_consumed] at hi
    omega
  | cons line rest ih =>
    intro seqIdx prev hv i hi hh
    by_cases h10 : 10 ≤ seqIdx
    · unfold fastaValidLoop at hi
      simp [h10] at hi
    · by_cases hhd : line.head? = some '>'
      · by_cases hpr : prev = some true
        · unfold fastaValidLoop at hv
          simp [h10, hhd, hpr] at hv
        · unfold fastaValidLoop at hv hi
          simp only [h10, if_neg, if_false, hhd, if_true, hpr] at hv hi
          cases i with
          | zero =>
            simp only [List.getD_cons_succ]
            exact fastaValidLoop_after_header rest (seqIdx + 1) hv (by omega)
          | succ j =>
            simp only [List.getD_cons_succ] at hh ⊢
            exact ih (seqIdx + 1) (some true) hv j (by omega) hh
      · by_cases h0 : seqIdx = 0
        · unfold fastaValidLoop at hv
          simp [h10, hhd, h0] at hv
        · unfold fastaValidLoop at hv hi
          simp only [h10, if_neg, if_false, hhd, h0] at hv hi
          cases i with
          | zero => simp only [List.getD_cons_zero] at hh; exact absurd hh hhd
          | succ j =>
            simp only [List.getD_cons_succ] at hh ⊢
            exact ih seqIdx (some false) hv j (by omega) hh

/-- Claim C7.  Every file accepted by the FASTA detector starts with a `>`
header (when it has a first line at all), and within the prefix of lines the
scan consumed (it stops after 10 headers or at end of stream) no header line is
immediately followed by another header line. -/
theorem C7_fasta_detector (content : List Char) (h : fastaIsValid content = true) :
    (∀ l ls, pyLines content = l :: ls → l.head? = some '>') ∧
    (∀ i, i + 1 < (fastaValidLoop (pyLines content) 0 none).2 →
      (((pyLines content).getD i []).head? = some '>') →
      (((pyLines content).getD (i + 1) []).head? ≠ some '>')) := by
  constructor
  · intro l ls hl
    unfold fastaIsValid at h
    rw [hl] at h
    by_contra hnh
    unfold fastaValidLoop at h
    simp [hnh] at h
  · exact fastaValidLoop_adjacent (pyLines content) 0 none h

/-- Claim C7, witness: the concrete valid file `">a\nAC\n"`. -/
theorem C7_fasta_detector_witness : (['>', 'a', '\n'] : List Char).head? = some '>' :=
  (C7_fasta_detector ['>', 'a', '\n', 'A', 'C', '\n'] rfl).1
    ['>', 'a', '\n'] [['A', 'C', '\n']] rfl

/-- Model of `Sequence.dna_complement` (sequenceIO.py lines 51-56):
the result `none` models a `KeyError` for characters outside the table. -/
def dna_complement : Char → Option Char
  | 'A' => some 'T' | 'T' => some 'A' | 'G' => some 'C' | 'C' => some 'G'
  | 'U' => some 'A' | 'N' => some 'N'
  | 'a' => some 't' | 't' => some 'a' | 'g' => some 'c' | 'c' => some 'g'
  | 'u' => some 'a' | 'n' => some 'n'
  | 'W' => some 'W' | 'S' => some 'S' | 'M' => some 'K' | 'K' => some 'M'
  | 'R' => some 'Y' | 'Y' => some 'R' | 'B' => some 'V' | 'V' => some 'B'
  | 'D' => some 'H' | 'H' => some 'D'
  | 'w' => some 'w' | 's' => some 's' | 'm' => some 'k' | 'k' => some 'm'
  | 'r' => some 'y' | 'y' => some 'r' | 'b' => some 'v' | 'v' => some 'b'
  | 'd' => some 'h' | 'h' => some 'd'
  | _ => none

/-- The comprehension `[table[base] for base in s]`: `none` models the
`KeyError` raised when some character is missing from the table. -/
def complementAll (table : Char → Option Char) : List Char → Option (List Char)
  | [] => some []
  | c :: rest =>
    match table c, complementAll table rest with
    | some c2, some rest2 => some (c2 :: rest2)
    | _, _ => none

/-- Model of `Sequence.dnaRevCom` (sequenceIO.py lines 85-97): complement of the
reversed residues; quality (if any) reversed; id and description copied. -/
def dnaRevCom (s : Sequence) : Option Sequence :=
  (complementAll dna_complement s.string.reverse).map (fun str2 =>
    ⟨s.id, s.description, str2, s.quality.map List.reverse⟩)

/-- The DNA alphabet with IUPAC ambiguity codes, upper- and lowercase: the keys
of the DNA complement table except the RNA base `U`/`u`. -/
def dnaAlphabet : List Char :=
  ['A', 'T', 'G', 'C', 'N', 'W', 'S', 'M', 'K', 'R', 'Y', 'B', 'V', 'D', 'H',
   'a', 't', 'g', 'c', 'n', 'w', 's', 'm', 'k', 'r', 'y', 'b', 'v', 'd', 'h']

theorem dna_complement_invol (c : Char) (hc : c ∈ dnaAlphabet) :
    ∃ c2, dna_complement c = some c2 ∧ c2 ∈ dnaAlphabet ∧ dna_complement c2 = some c := by
  fin_cases hc <;> exact ⟨_, rfl, by decide, rfl⟩

theorem complementAll_append (table : Char → Option Char) (l1 l2 m1 m2 : List Char)
    (h1 : complementAll table l1 = some m1) (h2 : complementAll table l2 = some m2) :
    complementAll table (l1 ++ l2) = some (m1 ++ m2) := by
  induction l1 generalizing m1 with
  | nil =>
    simp [complementAll] at h1
    subst h1
    simpa using h2
  | cons c rest ih =>
    simp only [complementAll] at h1
    cases ht : table c with
    | none => rw [ht] at h1; simp at h1
    | some c2 =>
      rw [ht] at h1
      cases hr : complementAll table rest with
      | none => rw [hr] at h1; simp at h1
      | some mr =>
        rw [hr] at h1
        simp at h1
        subst h1
        simp only [List.cons_append, complementAll, ht, ih mr hr, h2]
        simp [ih mr hr]

theorem complementAll_reverse (table : Char → Option Char) (l m : List Char)
    (h : complementAll table l = some m) :
    complementAll table l.reverse = some m.reverse := by
  induction l generalizing m with
  | nil =>
    simp [complementAll] at h
    subst h
    simp [complementAll]
  | cons c rest ih =>
    simp only [complementAll] at h
    cases ht : table c with
    | none => rw [ht] at h; simp at h
    | some c2 =>
      rw [ht] at h
      cases hr : complementAll table rest with
      | none => rw [hr] at h; simp at h
      | some mr =>
        rw [hr] at h
        simp at h
        subst h
        have hone : complementAll table [c] = some [c2] := by
          simp [complementAll, ht]
        have := complementAll_append table rest.reverse [c] mr.reverse [c2] (ih mr hr) hone
        simpa using this

theorem complementAll_invol (l : List Char) (hl : ∀ c ∈ l, c ∈ dnaAlphabet) :
    ∃ m, complementAll dna_complement l = some m ∧
      complementAll dna_complement m = some l := by
  induction l with
  | nil => exact ⟨[], rfl, rfl⟩
  | cons c rest ih =>
    obtain ⟨c2, hc2, _, hcc⟩ := dna_complement_invol c (hl c (by simp))
    obtain ⟨m, hm, hmm⟩ := ih (fun a ha => hl a (by simp [ha]))
    exact ⟨c2 :: m, by simp [complementAll, hc2, hm], by simp [complementAll, hcc, hmm]⟩

/-- Claim C8.  Applying `dnaRevCom` twice to a record whose residues are drawn
from the DNA alphabet (IUPAC ambiguity codes included, both cases) returns the
original record exactly (id, description, residues, quality); and on residues
`"ACGTN"` a single `dnaRevCom` yields residues `"NACGT"`. -/
theorem C8_revcom_involution :
    (∀ s : Sequence, (∀ c ∈ s.string, c ∈ dnaAlphabet) →
      (dnaRevCom s).bind dnaRevCom = some s) ∧
    dnaRevCom ⟨['r', '1'], none, ['A', 'C', 'G', 'T', 'N'], none⟩ =
      some ⟨['r', '1'], none, ['N', 'A', 'C', 'G', 'T'], none⟩ := by
  constructor
  · intro s hs
    obtain ⟨i, dsc, st, qual⟩ := s
    simp only at hs
    have hrev : ∀ c ∈ st.reverse, c ∈ dnaAlphabet :=
      fun c hm => hs c (List.mem_reverse.mp hm)
    obtain ⟨m, hm, hmm⟩ := complementAll_invol st.reverse hrev
    have h2 : complementAll dna_complement m.reverse = some st := by
      have := complementAll_reverse dna_complement m st.reverse hmm
      simpa using this
    simp only [dnaRevCom, hm, Option.map_some', Option.some_bind, h2]
    cases qual <;> simp
  · rfl

/-- Claim C8, witness: the double reverse complement is the identity on a
concrete DNA record with quality. -/
theorem C8_revcom_involution_witness :
    (dnaRevCom ⟨['x'], some ['d'], ['A', 'C', 'G', 'T', 'N'], some ['I', 'J', 'K', 'L', 'M']⟩).bind
        dnaRevCom =
      some ⟨['x'], some ['d'], ['A', 'C', 'G', 'T', 'N'], some ['I', 'J', 'K', 'L', 'M']⟩ :=
  C8_revcom_involution.1 _ (by decide)

/-- The records of a FASTQ stream, read by repeated `nextSeq` calls until the
sentinel; an `IOError` on any record aborts the parse. -/
def parseAllFq (content : List Char) (lineNb : Nat) (path : String) :
    Except PyErr (List Sequence) :=
  match hn : fastqNextSeq content lineNb path with
  | .error e => .error e
  | .ok none => .ok []
  | .ok (some (r, c2, l2)) =>
    match parseAllFq c2 l2 path with
    | .error e => .error e
    | .ok rest => .ok (r :: rest)
termination_by content.length
decreasing_by exact fastqNextSeq_some_len content lineNb path r c2 l2 hn

/-- A list of `m` ascending integers starting at `j`. -/
def rangeKeys (j : Int) (m : Nat) : List Int := (List.range m).map (fun i : Nat => j + (i : Int))

/-- The ascending key list of `count_by_qual = {elt: 0 for elt in range(-5, 127)}`;
`sorted(count_by_qual.items())` walks exactly these keys in this order. -/
def histKeys : List Int := rangeKeys (-5) 132

/-- The all-zero initial histogram. -/
def histInit : Int → Nat := fun _ => 0

/-- Model of `count_by_qual[code] += 1`: a `KeyError` escapes `qualOffset` when the code
is outside the dict's key range `-5..126`. -/
def histBump (h : Int → Nat) (code : Int) : Except PyErr (Int → Nat) :=
  if -5 ≤ code ∧ code ≤ 126 then .ok (Function.update h code (h code + 1))
  else .error (.keyError code)

/-- The `for curr_nt, curr_ascii in zip(record.string, record.quality)` loop of
`FastqIO.qualOffset` (sequenceIO.py lines 227-234), entered with `offset` equal
to `None`: on the first quality code below 59, set the offset to 33 and break;
otherwise count the code of every non-`N` base into the histogram. -/
def scanZip : List (Char × Char) → Nat → (Int → Nat) →
    Except PyErr (Option Nat × Nat × (Int → Nat))
  | [], nb, h => .ok (none, nb, h)
  | (nt, qc) :: rest, nb, h =>
    if qc.toNat < 59 then .ok (some 33, nb, h)
    else if nt ≠ 'N' then
      match histBump h qc.toNat with
      | .error e => .error e
      | .ok h2 => scanZip rest (nb + 1) h2
    else scanZip rest nb h

/-- The `while record and offset is None` loop of `FastqIO.qualOffset`
(sequenceIO.py lines 226-235), entered with a current record and `offset` equal
to `None`.  After scanning the record's zip, the next record is read (so an
`IOError` there propagates even when the offset was just decided); the loop
exits when no record remains or the offset is set. -/
def qualOffsetLoop (r : Sequence) (content : List Char) (lineNb : Nat)
    (path : String) (nbQual : Nat) (h : Int → Nat) :
    Except PyErr (Option Nat × Nat × (Int → Nat)) :=
  match scanZip (r.string.zip (r.quality.getD [])) nbQual h with
  | .error e => .error e
  | .ok (off2, nb2, h2) =>
    match hn : fastqNextSeq content lineNb path with
    | .error e => .error e
    | .ok none => .ok (off2, nb2, h2)
    | .ok (some (r2, c2, l2)) =>
      match off2 with
      | some o => .ok (some o, nb2, h2)
      | none => qualOffsetLoop r2 c2 l2 path nb2 h2
termination_by content.length
decreasing_by exact fastqNextSeq_some_len content lineNb path r2 c2 l2 hn

/-- The percentile loop of `FastqIO.qualOffset` (sequenceIO.py lines 238-245):
walk the histogram keys in ascending order accumulating counts; at the first
key whose cumulative count reaches `checkedIdx`, declare offset 64 when the key
exceeds 84 and offset 33 otherwise. -/
def percentileWalk : List Int → (Int → Nat) → Nat → Option Nat → Nat → Option Nat
  | [], _, _, offset, _ => offset
  | key :: rest, h, k, offset, cum =>
    if offset = none ∧ k ≤ cum + h key then
      percentileWalk rest h k (some (if 84 < key then 64 else 33)) (cum + h key)
    else percentileWalk rest h k offset (cum + h key)

/-- Fueled floor of the base-2 logarithm, exact whenever the fuel is at least
the argument (`natLog2` passes the argument itself as fuel). -/
def natLog2Go : Nat → Nat → Nat
  | 0, _ => 0
  | fuel + 1, n => if n ≤ 1 then 0 else natLog2Go fuel (n / 2) + 1

/-- Floor of the base-2 logarithm of a positive natural (0 at 0). -/
def natLog2 (n : Nat) : Nat := natLog2Go n n

/-- Round the quotient `a / b` to the nearest integer, ties to even — the IEEE
binary64 default rounding applied to a scaled significand. -/
def rneDiv (a b : Nat) : Nat :=
  let q := a / b
  let r := a % b
  if 2 * r < b then q
  else if b < 2 * r then q + 1
  else if q % 2 = 0 then q else q + 1

/-- Whether `a / b ≥ 2 ^ c`, for positive naturals and a possibly negative
power of two, decided in exact integer arithmetic. -/
def geMulPow2 (a b : Nat) (c : Int) : Bool :=
  if 0 ≤ c then decide (b * 2 ^ c.toNat ≤ a) else decide (b ≤ a * 2 ^ (-c).toNat)

/-- A nonnegative binary64 value `mant * 2 ^ exp` with unbounded exponent
range; after rounding, `mant` lies in `[2^52, 2^53)` (or is 0) and overflow
beyond the representable range is detected separately by `dblOverflow`. -/
structure Dbl where
  mant : Nat
  exp : Int
deriving DecidableEq, Repr

/-- Round the positive rational `num / den` to the nearest binary64 value
(round-to-nearest, ties to even, unbounded exponent): the binade exponent `e`
with `num / den ∈ [2^e, 2^(e+1))` is located from the two bit lengths, the
53-bit significand is the correctly rounded scaling of the exact quotient, and
a carry to `2^53` moves up one binade.  This is the correctly rounded result
CPython's `int / int` true division produces for `nb_qual / 100` (CPython
raises `OverflowError` instead when the result leaves the double range, which
the caller checks with `dblOverflow`). -/
def roundRatPos (num den : Nat) : Dbl :=
  let c : Int := (natLog2 num : Int) - (natLog2 den : Int)
  let e : Int := if geMulPow2 num den c then c else c - 1
  let s : Int := 52 - e
  let M : Nat :=
    if 0 ≤ s then rneDiv (num * 2 ^ s.toNat) den
    else rneDiv num (den * 2 ^ (-s).toNat)
  if M = 2 ^ 53 then ⟨2 ^ 52, e - 51⟩ else ⟨M, e - 52⟩

/-- IEEE binary64 multiplication of a rounded double by the exactly
representable 30 (round-to-nearest, ties to even): the up-to-5-bit-wider exact
product is rounded back to a 53-bit significand, a carry to `2^53` moving up
one binade. -/
def mulDbl30 (d : Dbl) : Dbl :=
  let m := d.mant * 30
  if m = 0 then ⟨0, 0⟩
  else
    let t := natLog2 m
    if t ≤ 52 then ⟨m, d.exp⟩
    else
      let k := t - 52
      let M := rneDiv m (2 ^ k)
      if M = 2 ^ 53 then ⟨2 ^ 52, d.exp + (k : Int) + 1⟩ else ⟨M, d.exp + (k : Int)⟩

/-- Whether an already rounded value lies at or beyond `2 ^ 1024`, the first
magnitude binary64 cannot represent: there CPython's `int / int` division
raises `OverflowError`, and `int()` of the infinite float product does too. -/
def dblOverflow (d : Dbl) : Bool :=
  if 0 ≤ d.exp then decide (2 ^ 1024 ≤ d.mant * 2 ^ d.exp.toNat)
  else decide (2 ^ 1024 * 2 ^ (-d.exp).toNat ≤ d.mant)

/-- Truncation of a nonnegative double to an integer — Python's `int(...)`. -/
def dblFloor (d : Dbl) : Nat :=
  if 0 ≤ d.exp then d.mant * 2 ^ d.exp.toNat else d.mant / 2 ^ (-d.exp).toNat

/-- Python's `checked_idx = int((nb_qual / 100) * 30)` in IEEE binary64
arithmetic: `nb_qual / 100` rounds the exact rational to the nearest double
(`OverflowError` beyond the double range), the product with 30 rounds again
(`int()` of an overflowed, infinite product also raises `OverflowError`), and
the final truncation is a floor since the value is nonnegative.  The two
roundings matter: at `nb_qual = 410` they give `122.99999999999998`, hence
`checked_idx = 122`, where exact rational arithmetic would give 123. -/
def checkedIdx (nbQual : Nat) : Except PyErr Nat :=
  if nbQual = 0 then .ok 0
  else
    let d1 := roundRatPos nbQual 100
    if dblOverflow d1 then .error .overflowError
    else
      let d2 := mulDbl30 d1
      if dblOverflow d2 then .error .overflowError
      else .ok (dblFloor d2)

/-- Lines 236-245 of sequenceIO.py: if pass 1 set no offset, resolve it at the
histogram key where the cumulative count reaches `checked_idx`; the float
computation of `checked_idx` (and any `OverflowError` from it) happens only
when the offset is still `None`. -/
def qualOffsetPass2 (offset : Option Nat) (nbQual : Nat) (h : Int → Nat) :
    Except PyErr (Option Nat) :=
  match offset with
  | some o => .ok (some o)
  | none =>
    match checkedIdx nbQual with
    | .error e => .error e
    | .ok k => .ok (percentileWalk histKeys h k none 0)

/-- Model of `FastqIO.qualOffset` (sequenceIO.py lines 211-246). -/
def qualOffset (content : List Char) (path : String) : Except PyErr (Option Nat) :=
  match fastqNextSeq content 1 path with
  | .error e => .error e
  | .ok none => qualOffsetPass2 none 0 histInit
  | .ok (some (r, c2, l2)) =>
    match qualOffsetLoop r c2 l2 path 0 histInit with
    | .error e => .error e
    | .ok (offset, nbQual, h) => qualOffsetPass2 offset nbQual h

/-- The `(residue, quality)` pairs scanned for a record (Python `zip` truncates
to the shorter of the two strings). -/
def recPairs (r : Sequence) : List (Char × Char) :=
  r.string.zip (r.quality.getD [])

/-- The quality codes counted into the histogram for one record: codes of the
zipped pairs whose base is not `N`. -/
def recCodes (r : Sequence) : List Nat :=
  (recPairs r).filterMap (fun p => if p.1 ≠ 'N' then some p.2.toNat else none)

/-- All counted quality codes of a record list, in scan order. -/
def allCodes (recs : List Sequence) : List Nat :=
  (recs.map recCodes).flatten

/-- Some scanned quality code is below 59. -/
def hasLowB (recs : List Sequence) : Bool :=
  recs.any (fun r => (recPairs r).any (fun p => p.2.toNat < 59))

/-- Every scanned quality code is at most 126 (so no `KeyError` can occur). -/
def le126B (recs : List Sequence) : Bool :=
  recs.all (fun r => (recPairs r).all (fun p => p.2.toNat ≤ 126))

/-- No scanned quality code is below 59. -/
def noLowB (recs : List Sequence) : Bool :=
  recs.all (fun r => (recPairs r).all (fun p => decide (59 ≤ p.2.toNat)))

section ParseAllLemmas

theorem parseAllFq_none (content : List Char) (lineNb : Nat) (path : String)
    (h : fastqNextSeq content lineNb path = .ok none) :
    parseAllFq content lineNb path = .ok [] := by
  rw [parseAllFq.eq_def]
  split <;> simp_all

theorem parseAllFq_some (content : List Char) (lineNb : Nat) (path : String)
    (r : Sequence) (c2 : List Char) (l2 : Nat) (rest : List Sequence)
    (h : fastqNextSeq content lineNb path = .ok (some (r, c2, l2)))
    (h2 : parseAllFq c2 l2 path = .ok rest) :
    parseAllFq content lineNb path = .ok (r :: rest) := by
  rw [parseAllFq.eq_def]
  split <;> simp_all

theorem parseAllFq_inv (content : List Char) (lineNb : Nat) (path : String)
    (recs : List Sequence) (hp : parseAllFq content lineNb path = .ok recs) :
    (fastqNextSeq content lineNb path = .ok none ∧ recs = []) ∨
    (∃ r c2 l2 rest, fastqNextSeq content lineNb path = .ok (some (r, c2, l2)) ∧
      parseAllFq c2 l2 path = .ok rest ∧ recs = r :: rest) := by
  rw [parseAllFq.eq_def] at hp
  split at hp
  · cases hp
  · rename_i heq
    refine Or.inl ⟨heq, ?_⟩
    injection hp with hh
    exact hh.symm
  · rename_i r c2 l2 heq
    split at hp
    · cases hp
    · rename_i rest heq2
      injection hp with hh
      exact Or.inr ⟨r, c2, l2, rest, heq, heq2, hh.symm⟩

end ParseAllLemmas

section ScanZipLemmas

/-- The counted codes of one zipped record scan. -/
def zipCodes (zs : List (Char × Char)) : List Nat :=
  zs.filterMap (fun p => if p.1 ≠ 'N' then some p.2.toNat else none)

/-- The histogram of a code list, as it ends up stored in `count_by_qual`. -/
def histOf (codes : List Nat) : Int → Nat :=
  fun i => codes.countP (fun x : Nat => decide ((x : Int) = i))

theorem recCodes_eq (r : Sequence) : recCodes r = zipCodes (recPairs r) := rfl

theorem scanZip_low (zs : List (Char × Char)) :
    ∀ nb h, (∀ p ∈ zs, p.2.toNat ≤ 126) → (∃ p ∈ zs, p.2.toNat < 59) →
    ∃ nb2 h2, scanZip zs nb h = .ok (some 33, nb2, h2) := by
  induction zs with
  | nil =>
    intro nb h _ hex
    simp at hex
  | cons p rest ih =>
    intro nb h h126 hex
    obtain ⟨nt, qc⟩ := p
    by_cases hlow : qc.toNat < 59
    · exact ⟨nb, h, by simp [scanZip, hlow]⟩
    · have hex2 : ∃ p ∈ rest, p.2.toNat < 59 := by
        rcases hex with ⟨p2, hp2, hl2⟩
        rcases List.mem_cons.mp hp2 with heq | hm
        · subst heq; simp at hl2; exact absurd hl2 hlow
        · exact ⟨p2, hm, hl2⟩
      have h126r : ∀ p ∈ rest, p.2.toNat ≤ 126 := fun p hm => h126 p (by simp [hm])
      by_cases hN : nt = 'N'
      · have := ih nb h h126r hex2
        simpa [scanZip, hlow, hN] using this
      · have hb : histBump h qc.toNat =
            .ok (Function.update h qc.toNat (h qc.toNat + 1)) := by
          have h1 : ((-5 : Int) ≤ qc.toNat) := by omega
          have h2 : ((qc.toNat : Int) ≤ 126) := by
            have := h126 (nt, qc) (by simp)
            simp at this
            omega
          simp [histBump, h1, h2]
        have := ih (nb + 1) (Function.update h qc.toNat (h qc.toNat + 1)) h126r hex2
        simpa [scanZip, hlow, hN, hb] using this

theorem scanZip_nolow (zs : List (Char × Char)) :
    ∀ nb h, (∀ p ∈ zs, ¬ p.2.toNat < 59) → (∀ p ∈ zs, p.2.toNat ≤ 126) →
    scanZip zs nb h = .ok (none, nb + (zipCodes zs).length,
      fun i => h i + histOf (zipCodes zs) i) := by
  induction zs with
  | nil =>
    intro nb h _ _
    have hfn : (fun i => h i + histOf (zipCodes ([] : List (Char × Char))) i) = h := by
      funext i
      simp [zipCodes, histOf]
    rw [hfn]
    simp [scanZip, zipCodes]
  | cons p rest ih =>
    intro nb h hnl h126
    obtain ⟨nt, qc⟩ := p
    have hlow : ¬ qc.toNat < 59 := by
      have := hnl (nt, qc) (by simp)
      simpa using this
    have hnlr : ∀ p ∈ rest, ¬ p.2.toNat < 59 := fun p hm => hnl p (by simp [hm])
    have h126r : ∀ p ∈ rest, p.2.toNat ≤ 126 := fun p hm => h126 p (by simp [hm])
    by_cases hN : nt = 'N'
    · have hz : zipCodes ((nt, qc) :: rest) = zipCodes rest := by
        simp [zipCodes, hN]
      rw [hz]
      have := ih nb h hnlr h126r
      simpa [scanZip, hlow, hN] using this
    · have hz : zipCodes ((nt, qc) :: rest) = qc.toNat :: zipCodes rest := by
        simp [zipCodes, hN]
      have hb : histBump h qc.toNat =
          .ok (Function.update h qc.toNat (h qc.toNat + 1)) := by
        have h1 : ((-5 : Int) ≤ qc.toNat) := by omega
        have h2 : ((qc.toNat : Int) ≤ 126) := by
          have := h126 (nt, qc) (by simp)
          simp at this
          omega
        simp [histBump, h1, h2]
      have hrec := ih (nb + 1) (Function.update h qc.toNat (h qc.toNat + 1)) hnlr h126r
      have hgoal : scanZip ((nt, qc) :: rest) nb h =
          scanZip rest (nb + 1) (Function.update h qc.toNat (h qc.toNat + 1)) := by
        simp [scanZip, hlow, hN, hb]
      rw [hgoal, hrec, hz]
      have hlen : nb + 1 + (zipCodes rest).length = nb + (qc.toNat :: zipCodes rest).length := by
        simp
        omega
      have hfn : (fun i => Function.update h qc.toNat (h qc.toNat + 1) i +
          histOf (zipCodes rest) i) =
          (fun i => h i + histOf (qc.toNat :: zipCodes rest) i) := by
        funext i
        rw [Function.update_apply]
        by_cases hi : i = (qc.toNat : Int)
        · simp [hi, histOf, List.countP_cons]
          omega
        · have hi2 : ¬ ((qc.toNat : Int) = i) := fun hx => hi hx.symm
          simp [hi, histOf, List.countP_cons, hi2]
      rw [hlen, hfn]

end ScanZipLemmas

section LoopLemmas

theorem allCodes_cons (r : Sequence) (recs : List Sequence) :
    allCodes (r :: recs) = recCodes r ++ allCodes recs := by
  simp [allCodes]

theorem histOf_append (a b : List Nat) (i : Int) :
    histOf (a ++ b) i = histOf a i + histOf b i := by
  simp [histOf, List.countP_append]

theorem qualOffsetLoop_nolow (N : Nat) :
    ∀ content : List Char, content.length ≤ N →
    ∀ (r : Sequence) (lineNb : Nat) (path : String) (nb : Nat) (h : Int → Nat)
      (recs : List Sequence),
    parseAllFq content lineNb path = .ok recs →
    (∀ r2 ∈ r :: recs, ∀ p ∈ recPairs r2, ¬ p.2.toNat < 59) →
    (∀ r2 ∈ r :: recs, ∀ p ∈ recPairs r2, p.2.toNat ≤ 126) →
    qualOffsetLoop r content lineNb path nb h =
      .ok (none, nb + (allCodes (r :: recs)).length,
        fun i => h i + histOf (allCodes (r :: recs)) i) := by
  induction N with
  | zero =>
    intro content hlen r lineNb path nb h recs hparse hnl h126
    have hcnil : content = [] := by
      cases content with
      | nil => rfl
      | cons a t => simp at hlen
    subst hcnil
    have hnone : fastqNextSeq [] lineNb path = .ok none :=
      (fastqNextSeq_none_iff [] lineNb path).mpr rfl
    have hrecs : recs = [] := by
      rcases parseAllFq_inv [] lineNb path recs hparse with ⟨_, hr⟩ | ⟨r2, c2, l2, rest, hs, _, _⟩
      · exact hr
      · rw [hnone] at hs; cases hs
    subst hrecs
    have hscan := scanZip_nolow (recPairs r) nb h (hnl r (by simp)) (h126 r (by simp))
    rw [qualOffsetLoop.eq_def]
    rw [show r.string.zip (r.quality.getD []) = recPairs r from rfl, hscan]
    simp only []
    split
    · rename_i e heq
      rw [hnone] at heq; cases heq
    · simp [allCodes_cons, allCodes, recCodes_eq]
    · rename_i r2 c2 l2 heq
      rw [hnone] at heq; cases heq
  | succ N ih =>
    intro content hlen r lineNb path nb h recs hparse hnl h126
    have hscan := scanZip_nolow (recPairs r) nb h (hnl r (by simp)) (h126 r (by simp))
    rw [qualOffsetLoop.eq_def]
    rw [show r.string.zip (r.quality.getD []) = recPairs r from rfl, hscan]
    simp only []
    rcases parseAllFq_inv content lineNb path recs hparse with ⟨hs, hr⟩ |
      ⟨r2, c2, l2, rest, hs, hp2, hr⟩
    · subst hr
      split
      · rename_i e heq
        rw [hs] at heq; cases heq
      · simp [allCodes_cons, allCodes, recCodes_eq]
      · rename_i r3 c3 l3 heq
        rw [hs] at heq; cases heq
    · subst hr
      split
      · rename_i e heq
        rw [hs] at heq; cases heq
      · rename_i heq
        rw [hs] at heq; cases heq
      · rename_i r3 c3 l3 heq
        rw [hs] at heq
        injection heq with heq1
        injection heq1 with heq2
        obtain ⟨hr23, hc23, hl23⟩ : r2 = r3 ∧ c2 = c3 ∧ l2 = l3 := by
          have h1 := congrArg Prod.fst heq2
          have h2 := congrArg (fun x => x.2.1) heq2
          have h3 := congrArg (fun x => x.2.2) heq2
          exact ⟨h1, h2, h3⟩
        subst hr23; subst hc23; subst hl23
        have hlen2 : c2.length ≤ N := by
          have := fastqNextSeq_some_len content lineNb path r2 c2 l2 hs
          omega
        have hnl2 : ∀ r4 ∈ r2 :: rest, ∀ p ∈ recPairs r4, ¬ p.2.toNat < 59 :=
          fun r4 hm => hnl r4 (by simp at hm ⊢; tauto)
        have h1262 : ∀ r4 ∈ r2 :: rest, ∀ p ∈ recPairs r4, p.2.toNat ≤ 126 :=
          fun r4 hm => h126 r4 (by simp at hm ⊢; tauto)
        rw [← recCodes_eq r]
        rw [ih c2 hlen2 r2 l2 path (nb + (recCodes r).length)
          (fun i => h i + histOf (recCodes r) i) rest hp2 hnl2 h1262]
        have hlen3 : nb + (recCodes r).length + (allCodes (r2 :: rest)).length =
            nb + (allCodes (r :: r2 :: rest)).length := by
          rw [allCodes_cons r (r2 :: rest)]
          simp
          omega
        have hfn : (fun i => (h i + histOf (recCodes r) i) + histOf (allCodes (r2 :: rest)) i) =
            (fun i => h i + histOf (allCodes (r :: r2 :: rest)) i) := by
          funext i
          rw [allCodes_cons r (r2 :: rest), histOf_append]
          omega
        rw [hlen3, hfn]

theorem qualOffsetLoop_low (N : Nat) :
    ∀ content : List Char, content.length ≤ N →
    ∀ (r : Sequence) (lineNb : Nat) (path : String) (nb : Nat) (h : Int → Nat)
      (recs : List Sequence),
    parseAllFq content lineNb path = .ok recs →
    (∀ r2 ∈ r :: recs, ∀ p ∈ recPairs r2, p.2.toNat ≤ 126) →
    (∃ r2 ∈ r :: recs, ∃ p ∈ recPairs r2, p.2.toNat < 59) →
    ∃ nb2 h2, qualOffsetLoop r content lineNb path nb h = .ok (some 33, nb2, h2) := by
  induction N with
  | zero =>
    intro content hlen r lineNb path nb h recs hparse h126 hlow
    have hcnil : content = [] := by
      cases content with
      | nil => rfl
      | cons a t => simp at hlen
    subst hcnil
    have hnone : fastqNextSeq [] lineNb path = .ok none :=
      (fastqNextSeq_none_iff [] lineNb path).mpr rfl
    have hrecs : recs = [] := by
      rcases parseAllFq_inv [] lineNb path recs hparse with ⟨_, hr⟩ | ⟨r2, c2, l2, rest, hs, _, _⟩
      · exact hr
      · rw [hnone] at hs; cases hs
    subst hrecs
    have hrlow : ∃ p ∈ recPairs r, p.2.toNat < 59 := by
      rcases hlow with ⟨r2, hm, hp⟩
      simp at hm
      subst hm
      exact hp
    obtain ⟨nb2, h2, hscan⟩ := scanZip_low (recPairs r) nb h (h126 r (by simp)) hrlow
    refine ⟨nb2, h2, ?_⟩
    rw [qualOffsetLoop.eq_def]
    rw [show r.string.zip (r.quality.getD []) = recPairs r from rfl, hscan]
    simp only []
    split <;> simp_all
  | succ N ih =>
    intro content hlen r lineNb path nb h recs hparse h126 hlow
    by_cases hrlow : ∃ p ∈ recPairs r, p.2.toNat < 59
    · obtain ⟨nb2, h2, hscan⟩ := scanZip_low (recPairs r) nb h (h126 r (by simp)) hrlow
      refine ⟨nb2, h2, ?_⟩
      rw [qualOffsetLoop.eq_def]
      rw [show r.string.zip (r.quality.getD []) = recPairs r from rfl, hscan]
      simp only []
      rcases parseAllFq_inv content lineNb path recs hparse with ⟨hs, _⟩ |
        ⟨r2, c2, l2, rest, hs, _, _⟩ <;>
        split <;> simp_all
    · have hrnl : ∀ p ∈ recPairs r, ¬ p.2.toNat < 59 := by
        intro p hp
        by_contra hc
        exact hrlow ⟨p, hp, by omega⟩
      have hscan := scanZip_nolow (recPairs r) nb h hrnl (h126 r (by simp))
      rcases parseAllFq_inv content lineNb path recs hparse with ⟨hs, hr⟩ |
        ⟨r2, c2, l2, rest, hs, hp2, hr⟩
      · exfalso
        subst hr
        rcases hlow with ⟨r2, hm, hp⟩
        simp at hm
        subst hm
        exact hrlow hp
      · subst hr
        have hlow2 : ∃ r4 ∈ r2 :: rest, ∃ p ∈ recPairs r4, p.2.toNat < 59 := by
          rcases hlow with ⟨r4, hm, hp⟩
          rcases List.mem_cons.mp hm with heq4 | hm4
          · subst heq4
            exact absurd hp hrlow
          · exact ⟨r4, hm4, hp⟩
        have hlen2 : c2.length ≤ N := by
          have := fastqNextSeq_some_len content lineNb path r2 c2 l2 hs
          omega
        have h1262 : ∀ r4 ∈ r2 :: rest, ∀ p ∈ recPairs r4, p.2.toNat ≤ 126 :=
          fun r4 hm => h126 r4 (by simp at hm ⊢; tauto)
        obtain ⟨nb3, h3, hrec⟩ := ih c2 hlen2 r2 l2 path
          (nb + (zipCodes (recPairs r)).length)
          (fun i => h i + histOf (zipCodes (recPairs r)) i) rest hp2 h1262 hlow2
        refine ⟨nb3, h3, ?_⟩
        rw [qualOffsetLoop.eq_def]
        rw [show r.string.zip (r.quality.getD []) = recPairs r from rfl, hscan]
        simp only []
        split
        · rename_i e heq
          rw [hs] at heq; cases heq
        · rename_i heq
          rw [hs] at heq; cases heq
        · rename_i r3 c3 l3 heq
          rw [hs] at heq
          injection heq with heq1
          injection heq1 with heq2
          obtain ⟨hr23, hc23, hl23⟩ : r2 = r3 ∧ c2 = c3 ∧ l2 = l3 := by
            have h1 := congrArg Prod.fst heq2
            have h2 := congrArg (fun x => x.2.1) heq2
            have h3 := congrArg (fun x => x.2.2) heq2
            exact ⟨h1, h2, h3⟩
          subst hr23; subst hc23; subst hl23
          exact hrec

end LoopLemmas

section WalkLemmas

theorem percentileWalk_some (keys : List Int) :
    ∀ (h : Int → Nat) (k o cum : Nat), percentileWalk keys h k (some o) cum = some o := by
  induction keys with
  | nil => intro h k o cum; rfl
  | cons key rest ih =>
    intro h k o cum
    simp only [percentileWalk]
    have : ¬ ((some o : Option Nat) = none ∧ k ≤ cum + h key) := by simp
    rw [if_neg this]
    exact ih h k o (cum + h key)

theorem rangeKeys_succ (j : Int) (m : Nat) :
    rangeKeys j (m + 1) = j :: rangeKeys (j + 1) m := by
  unfold rangeKeys
  rw [List.range_succ_eq_map, List.map_cons, List.map_map]
  refine congrArg₂ _ (by simp) ?_
  refine List.map_congr_left ?_
  intro i _
  simp [Function.comp, Nat.succ_eq_add_one]
  push_cast
  ring

theorem countP_lt_step (codes : List Nat) (j : Int) :
    codes.countP (fun x : Nat => decide ((x : Int) < j + 1)) =
      codes.countP (fun x : Nat => decide ((x : Int) < j)) +
      codes.countP (fun x : Nat => decide ((x : Int) = j)) := by
  induction codes with
  | nil => simp
  | cons a t ih =>
    simp only [List.countP_cons, ih]
    by_cases h1 : (a : Int) < j
    · have h2 : ¬ (a : Int) = j := by omega
      have h3 : (a : Int) < j + 1 := by omega
      simp [h1, h2, h3]
      omega
    · by_cases h2 : (a : Int) = j
      · have h3 : (a : Int) < j + 1 := by omega
        simp [h1, h2, h3]
        omega
      · have h3 : ¬ (a : Int) < j + 1 := by omega
        simp [h1, h2, h3]

theorem countP_congr_codes {p q : Nat → Bool} (l : List Nat)
    (h : ∀ a ∈ l, p a = q a) : l.countP p = l.countP q := by
  induction l with
  | nil => rfl
  | cons a t ih =>
    simp only [List.countP_cons, h a (by simp), ih (fun b hb => h b (by simp [hb]))]

theorem percentileWalk_crossing (m : Nat) :
    ∀ (j : Int) (codes : List Nat) (k cum : Nat),
    (∀ x ∈ codes, (x : Int) < j + m) →
    cum = codes.countP (fun x : Nat => decide ((x : Int) < j)) →
    cum < k → k ≤ codes.length →
    ∃ c : Nat, j ≤ (c : Int) ∧ c ∈ codes ∧
      codes.countP (fun x => decide (x < c)) < k ∧
      k ≤ codes.countP (fun x => decide (x ≤ c)) ∧
      percentileWalk (rangeKeys j m) (histOf codes) k none cum =
        some (if 84 < c then 64 else 33) := by
  induction m with
  | zero =>
    intro j codes k cum hub hcum hck hk
    exfalso
    have hall : codes.countP (fun x : Nat => decide ((x : Int) < j)) = codes.length :=
      List.countP_eq_length.mpr (fun x hx => by
        simpa using hub x hx)
    omega
  | succ m ih =>
    intro j codes k cum hub hcum hck hk
    rw [rangeKeys_succ]
    have hstep : cum + histOf codes j =
        codes.countP (fun x : Nat => decide ((x : Int) < j + 1)) := by
      rw [hcum]
      unfold histOf
      exact (countP_lt_step codes j).symm
    by_cases hcross : k ≤ cum + histOf codes j
    · have hpos : 0 < histOf codes j := by omega
      have hex : ∃ x ∈ codes, decide ((x : Int) = j) = true := by
        unfold histOf at hpos
        exact List.countP_pos.mp hpos
      obtain ⟨c, hcmem, hcj⟩ := hex
      have hcj2 : (c : Int) = j := by simpa using hcj
      refine ⟨c, le_of_eq hcj2.symm, hcmem, ?_, ?_, ?_⟩
      · have hcg : codes.countP (fun x => decide (x < c)) =
            codes.countP (fun x : Nat => decide ((x : Int) < j)) := by
          refine countP_congr_codes codes ?_
          intro a _
          have : a < c ↔ (a : Int) < j := by omega
          simp [this]
        omega
      · have hcg : codes.countP (fun x => decide (x ≤ c)) =
            codes.countP (fun x : Nat => decide ((x : Int) < j + 1)) := by
          refine countP_congr_codes codes ?_
          intro a _
          have : a ≤ c ↔ (a : Int) < j + 1 := by omega
          simp [this]
        omega
      · simp only [percentileWalk]
        split
        · rw [percentileWalk_some]
          have hiff : (84 : Int) < (c : Int) ↔ 84 < c := by exact_mod_cast Iff.rfl
          rw [← hcj2, if_congr hiff rfl rfl]
        · rename_i hfalse
          exact absurd hcross (by simpa using hfalse)
    · have hnext : percentileWalk (j :: rangeKeys (j + 1) m) (histOf codes) k none cum =
          percentileWalk (rangeKeys (j + 1) m) (histOf codes) k none (cum + histOf codes j) := by
        simp only [percentileWalk]
        rw [if_neg (by simp [hcross])]
      rw [hnext]
      have hub2 : ∀ x ∈ codes, (x : Int) < (j + 1) + m := by
        intro x hx
        have := hub x hx
        push_cast at this ⊢
        omega
      obtain ⟨c, hjc, hcmem, hlt, hle, hwalk⟩ := ih (j + 1) codes k (cum + histOf codes j)
        hub2 hstep (by omega) hk
      exact ⟨c, by omega, hcmem, hlt, hle, hwalk⟩

end WalkLemmas

section QualOffsetTop

theorem histOf_nil_eq : histOf ([] : List Nat) = histInit := by
  funext i
  simp [histOf, histInit]

theorem qualOffsetPass2_ok (nbQual : Nat) (h : Int → Nat) (k : Nat)
    (hck : checkedIdx nbQual = .ok k) :
    qualOffsetPass2 none nbQual h = .ok (percentileWalk histKeys h k none 0) := by
  unfold qualOffsetPass2
  rw [hck]

theorem qualOffset_nolow (content : List Char) (path : String) (recs : List Sequence)
    (hparse : parseAllFq content 1 path = .ok recs)
    (hnl : ∀ r2 ∈ recs, ∀ p ∈ recPairs r2, ¬ p.2.toNat < 59)
    (h126 : ∀ r2 ∈ recs, ∀ p ∈ recPairs r2, p.2.toNat ≤ 126) :
    qualOffset content path =
      qualOffsetPass2 none (allCodes recs).length (histOf (allCodes recs)) := by
  rcases parseAllFq_inv content 1 path recs hparse with ⟨hs, hr⟩ |
    ⟨r, c2, l2, rest, hs, hp2, hr⟩
  · subst hr
    unfold qualOffset
    rw [hs]
    simp only []
    rw [show allCodes ([] : List Sequence) = [] from rfl, histOf_nil_eq]
    rfl
  · subst hr
    unfold qualOffset
    rw [hs]
    simp only []
    have hloop := qualOffsetLoop_nolow c2.length c2 le_rfl r l2 path 0 histInit rest hp2
      hnl h126
    rw [hloop]
    have hfn : (fun i => histInit i + histOf (allCodes (r :: rest)) i) =
        histOf (allCodes (r :: rest)) := by
      funext i
      simp [histInit]
    rw [hfn]
    simp only []
    rw [Nat.zero_add]

theorem percentileWalk_cons (key : Int) (rest : List Int) (h : Int → Nat) (k : Nat)
    (offset : Option Nat) (cum : Nat) :
    percentileWalk (key :: rest) h k offset cum =
      if offset = none ∧ k ≤ cum + h key then
        percentileWalk rest h k (some (if 84 < key then 64 else 33)) (cum + h key)
      else percentileWalk rest h k offset (cum + h key) := rfl

theorem percentileWalk_zero (h : Int → Nat) :
    percentileWalk histKeys h 0 none 0 = some 33 := by
  have hk : histKeys = (-5 : Int) :: rangeKeys (-4) 131 := by
    unfold histKeys
    rw [show (132 : Nat) = 131 + 1 from rfl, rangeKeys_succ]
    norm_num
  rw [hk, percentileWalk_cons, if_pos ⟨rfl, by omega⟩, percentileWalk_some]
  norm_num

theorem allCodes_bounds (recs : List Sequence)
    (hnl : ∀ r2 ∈ recs, ∀ p ∈ recPairs r2, ¬ p.2.toNat < 59)
    (h126 : ∀ r2 ∈ recs, ∀ p ∈ recPairs r2, p.2.toNat ≤ 126) :
    ∀ x ∈ allCodes recs, 59 ≤ x ∧ x ≤ 126 := by
  intro x hx
  simp only [allCodes, List.mem_flatten, List.mem_map] at hx
  obtain ⟨l, ⟨r, hr, hl⟩, hxl⟩ := hx
  subst hl
  simp only [recCodes_eq, zipCodes, List.mem_filterMap] at hxl
  obtain ⟨p, hp, hpx⟩ := hxl
  by_cases hN : p.1 = 'N'
  · simp [hN] at hpx
  · simp [hN] at hpx
    subst hpx
    have h1 := hnl r hr p hp
    have h2 := h126 r hr p hp
    omega

end QualOffsetTop

/-- Claim C2 (amended).  If a FASTQ input parses into records without error and
every scanned (zipped) quality code is at most 126, then as soon as some record
has a quality character within the residue length (Python's `zip` truncates the
quality to the residue length) whose code is below 59, `qualOffset` returns 33;
in particular it returns 33 on `"@r1\nACGT\n+\n!!!!\n"`. -/
theorem C2_early_exit :
    (∀ content path recs, parseAllFq content 1 path = .ok recs →
      le126B recs = true → hasLowB recs = true →
      qualOffset content path = .ok (some 33)) ∧
    qualOffset ['@', 'r', '1', '\n', 'A', 'C', 'G', 'T', '\n', '+', '\n', '!', '!', '!', '!', '\n']
      somePath = .ok (some 33) := by
  have hgen : ∀ content path recs, parseAllFq content 1 path = .ok recs →
      le126B recs = true → hasLowB recs = true →
      qualOffset content path = .ok (some 33) := by
    intro content path recs hparse h126 hlow
    have h126b : ∀ r2 ∈ recs, ∀ p ∈ recPairs r2, p.2.toNat ≤ 126 := by
      simpa [le126B, List.all_eq_true] using h126
    have hlowb : ∃ r2 ∈ recs, ∃ p ∈ recPairs r2, p.2.toNat < 59 := by
      simpa [hasLowB, List.any_eq_true] using hlow
    rcases parseAllFq_inv content 1 path recs hparse with ⟨hs, hr⟩ |
      ⟨r, c2, l2, rest, hs, hp2, hr⟩
    · subst hr
      simp at hlowb
    · subst hr
      obtain ⟨nb2, h2, hloop⟩ := qualOffsetLoop_low c2.length c2 le_rfl r l2 path 0 histInit
        rest hp2 h126b hlowb
      unfold qualOffset
      rw [hs]
      simp only []
      rw [hloop]
      rfl
  refine ⟨hgen, hgen _ somePath
    [⟨['r', '1'], none, ['A', 'C', 'G', 'T'], some ['!', '!', '!', '!']⟩]
    (parseAllFq_some _ _ _ _ _ _ _ rfl (parseAllFq_none _ _ _ rfl)) (by decide) (by decide)⟩

/-- Claim C2, witness: the general early-exit statement applied to a concrete
one-record file whose single quality code is 33. -/
theorem C2_early_exit_witness :
    qualOffset ['@', 'x', '\n', 'A', '\n', '+', '\n', '!', '\n'] somePath = .ok (some 33) :=
  C2_early_exit.1 _ somePath [⟨['x'], none, ['A'], some ['!']⟩]
    (parseAllFq_some _ _ _ _ _ _ _ rfl (parseAllFq_none _ _ _ rfl)) (by decide) (by decide)

/-- Claim C2, counterexample.  The input `"@r1\nACGT\n+\n~~~~!\n"` contains the
quality character `!` (code 33, below 59), but it sits beyond the residue
length, `zip` never scans it, and `qualOffset` returns 64 rather than the 33
the claim demands. -/
theorem C2_counterexample :
    qualOffset
      ['@', 'r', '1', '\n', 'A', 'C', 'G', 'T', '\n', '+', '\n', '~', '~', '~', '~', '!', '\n']
      somePath = .ok (some 64) := by
  rw [qualOffset_nolow
    ['@', 'r', '1', '\n', 'A', 'C', 'G', 'T', '\n', '+', '\n', '~', '~', '~', '~', '!', '\n']
    somePath [⟨['r', '1'], none, ['A', 'C', 'G', 'T'], some ['~', '~', '~', '~', '!']⟩]
    (parseAllFq_some _ 1 somePath _ [] 5 [] rfl (parseAllFq_none [] 5 somePath rfl))
    (by decide) (by decide)]
  rfl

/-- Claim C3 (amended).  For a FASTQ input that parses without error, in which
no scanned (zipped) quality code is below 59 and every scanned code is at most
126: writing `n` for the number of counted codes (non-`N` bases) and `k` for
Python's `checked_idx = int((nb_qual / 100) * 30)` computed in IEEE binary64
arithmetic (the division and the product each round to nearest, so `k` can
fall short of the exact `floor(n * 30 / 100)`, as at `n = 410` where `k` is
122 and not 123), then, provided the float computation does not overflow:
(1) when `1 ≤ k ≤ n`, `qualOffset` returns 64 or 33 according to whether the
`k`-th smallest counted code — the value `c` with fewer than `k` codes below
it and at least `k` codes at most it — exceeds 84; (2) in particular, when all
counted codes are at least 90 and `1 ≤ k ≤ n` it returns 64; and (3) with at
most 3 counted codes `k = 0`, the cumulative walk stops at the histogram key
`-5` and it returns 33 regardless of the codes. -/
theorem C3_percentile_amended :
    ∀ content path recs k, parseAllFq content 1 path = .ok recs →
    noLowB recs = true → le126B recs = true →
    checkedIdx (allCodes recs).length = .ok k →
    ((1 ≤ k → k ≤ (allCodes recs).length →
      ∃ c : Nat, c ∈ allCodes recs ∧
        (allCodes recs).countP (fun x => decide (x < c)) < k ∧
        k ≤ (allCodes recs).countP (fun x => decide (x ≤ c)) ∧
        qualOffset content path = .ok (some (if 84 < c then 64 else 33))) ∧
      ((∀ x ∈ allCodes recs, 90 ≤ x) → 1 ≤ k → k ≤ (allCodes recs).length →
        qualOffset content path = .ok (some 64)) ∧
      ((allCodes recs).length ≤ 3 → qualOffset content path = .ok (some 33))) := by
  intro content path recs k hparse hnl h126 hck
  have hnlb : ∀ r2 ∈ recs, ∀ p ∈ recPairs r2, ¬ p.2.toNat < 59 := by
    have := (by simpa [noLowB, List.all_eq_true] using hnl :
      ∀ r2 ∈ recs, ∀ p ∈ recPairs r2, 59 ≤ p.2.toNat)
    intro r2 hr p hp
    have := this r2 hr p hp
    omega
  have h126b : ∀ r2 ∈ recs, ∀ p ∈ recPairs r2, p.2.toNat ≤ 126 := by
    simpa [le126B, List.all_eq_true] using h126
  have hql := qualOffset_nolow content path recs hparse hnlb h126b
  have hbounds := allCodes_bounds recs hnlb h126b
  have hpass2 := qualOffsetPass2_ok (allCodes recs).length (histOf (allCodes recs)) k hck
  have hconj1 : 1 ≤ k → k ≤ (allCodes recs).length →
      ∃ c : Nat, c ∈ allCodes recs ∧
        (allCodes recs).countP (fun x => decide (x < c)) < k ∧
        k ≤ (allCodes recs).countP (fun x => decide (x ≤ c)) ∧
        qualOffset content path = .ok (some (if 84 < c then 64 else 33)) := by
    intro hk1 hkn
    have hub : ∀ x ∈ allCodes recs, (x : Int) < (-5) + ((132 : Nat) : Int) := by
      intro x hx
      have := (hbounds x hx).2
      push_cast
      omega
    have hcum0 : (0 : Nat) =
        (allCodes recs).countP (fun x : Nat => decide ((x : Int) < (-5 : Int))) := by
      refine (List.countP_eq_zero.mpr ?_).symm
      intro a _
      simp
      omega
    obtain ⟨c, hjc, hcmem, hlt, hle, hwalk⟩ :=
      percentileWalk_crossing 132 (-5) (allCodes recs) k 0 hub hcum0 (by omega) hkn
    refine ⟨c, hcmem, hlt, hle, ?_⟩
    rw [hql, hpass2, show histKeys = rangeKeys (-5) 132 from rfl, hwalk]
  refine ⟨hconj1, ?_, ?_⟩
  · intro h90 hk1 hkn
    obtain ⟨c, hcmem, _, _, hq⟩ := hconj1 hk1 hkn
    have hc90 : 90 ≤ c := h90 c hcmem
    rw [hq, if_pos (by omega)]
  · intro h3
    rw [hql]
    have hn : (allCodes recs).length = 0 ∨ (allCodes recs).length = 1 ∨
        (allCodes recs).length = 2 ∨ (allCodes recs).length = 3 := by omega
    rcases hn with hn | hn | hn | hn
    · rw [hn, qualOffsetPass2_ok 0 _ 0 rfl, percentileWalk_zero]
    · rw [hn, qualOffsetPass2_ok 1 _ 0 rfl, percentileWalk_zero]
    · rw [hn, qualOffsetPass2_ok 2 _ 0 rfl, percentileWalk_zero]
    · rw [hn, qualOffsetPass2_ok 3 _ 0 rfl, percentileWalk_zero]

/-- Claim C3, counterexample.  The file `"@r1\nA\n+\nZ\n"` has a single counted
quality code 90 (none below 59), so by the claim the 30th-percentile code is 90
and, exceeding 84, the result should be 64; the code computes
`checked_idx = int((1 / 100) * 30) = int(0.30000000000000004) = 0`, the
cumulative walk stops at the first histogram key `-5`, and `qualOffset`
returns 33. -/
theorem C3_counterexample :
    qualOffset ['@', 'r', '1', '\n', 'A', '\n', '+', '\n', 'Z', '\n'] somePath =
      .ok (some 33) := by
  rw [qualOffset_nolow ['@', 'r', '1', '\n', 'A', '\n', '+', '\n', 'Z', '\n'] somePath
    [⟨['r', '1'], none, ['A'], some ['Z']⟩]
    (parseAllFq_some _ 1 somePath _ [] 5 [] rfl (parseAllFq_none [] 5 somePath rfl))
    (by decide) (by decide)]
  rfl

/-- Claim C3, witness: a file with four counted codes 90 (all at least 90,
none below 59, all at most 126), for which the float computation gives
`checked_idx = int((4 / 100) * 30) = int(1.2000000000000002) = 1`, classifies
as offset 64. -/
theorem C3_percentile_witness :
    qualOffset ['@', 'r', '1', '\n', 'A', 'C', 'G', 'T', '\n', '+', '\n', 'Z', 'Z', 'Z', 'Z', '\n']
      somePath = .ok (some 64) :=
  ((C3_percentile_amended
    ['@', 'r', '1', '\n', 'A', 'C', 'G', 'T', '\n', '+', '\n', 'Z', 'Z', 'Z', 'Z', '\n'] somePath
    [⟨['r', '1'], none, ['A', 'C', 'G', 'T'], some ['Z', 'Z', 'Z', 'Z']⟩] 1
    (parseAllFq_some _ 1 somePath _ [] 5 [] rfl (parseAllFq_none [] 5 somePath rfl))
    (by decide) (by decide) rfl).2.1) (by decide) (by decide) (by decide)

/-- Claim C4.  On an input with zero quality codes — here the empty file — the
code does not return the absent value: `checked_idx` is 0, the percentile walk
fires at the very first histogram key `-5`, and `qualOffset` returns 33.
The docstring's promised `None` is unreachable. -/
theorem C4_empty_returns_33 : qualOffset [] somePath = .ok (some 33) := rfl
